import Mathlib

/-!
golog: namespaced, level-filtered logging

A shallow embedding of `github.com/silentien/golog` (package `golog`, `internal/types`,
`request`, `loggers/text`) together with the parts of the Go standard library its
behaviour depends on (`unicode/utf8`, `regexp`, `strings`, `fmt`, `time`).

Conventions.
* A Go `string` / `[]byte` is a list of bytes; a byte is a natural number below 256.
* A rune is a natural number (a Unicode code point).
* Fallible Go functions `(T, error)` become `Except`.
-/

namespace Golog

deriving instance DecidableEq for Except

/-! ## Strings, bytes and UTF-8 (`unicode/utf8`) -/

/-- A Go string: a finite sequence of bytes (natural numbers below 256), not
necessarily valid UTF-8. -/
abbrev GoString := List Nat

/-- The replacement character `utf8.RuneError`. -/
def RuneError : Nat := 0xFFFD

/-- The UTF-8 encoding of a rune (`utf8.AppendRune`); surrogates and values above
`U+10FFFF` are encoded as `U+FFFD`. -/
def EncodeRune (r : Nat) : List Nat :=
  if r < 0x80 then [r]
  else if r < 0x800 then [0xC0 + r / 64, 0x80 + r % 64]
  else if (0xD800 ≤ r ∧ r ≤ 0xDFFF) ∨ 0x10FFFF < r then [0xEF, 0xBF, 0xBD]
  else if r < 0x10000 then [0xE0 + r / 4096, 0x80 + r / 64 % 64, 0x80 + r % 64]
  else [0xF0 + r / 262144, 0x80 + r / 4096 % 64, 0x80 + r / 64 % 64, 0x80 + r % 64]

/-- The Go string denoted by a string literal: the UTF-8 bytes of its characters. -/
def str (s : String) : GoString :=
  s.toList.flatMap fun c => EncodeRune c.toNat

/-- The size entry of the table `utf8.first`: `1` for ASCII, `2`, `3` or `4` for a
lead byte, `0` for a byte that cannot start a rune. -/
def firstSize (p0 : Nat) : Nat :=
  if p0 < 0x80 then 1
  else if 0xC2 ≤ p0 ∧ p0 ≤ 0xDF then 2
  else if 0xE0 ≤ p0 ∧ p0 ≤ 0xEF then 3
  else if 0xF0 ≤ p0 ∧ p0 ≤ 0xF4 then 4
  else 0

/-- Lower end of the range accepted for the second byte (`utf8.acceptRanges`). -/
def acceptLo (p0 : Nat) : Nat :=
  if p0 = 0xE0 then 0xA0 else if p0 = 0xF0 then 0x90 else 0x80

/-- Upper end of the range accepted for the second byte (`utf8.acceptRanges`). -/
def acceptHi (p0 : Nat) : Nat :=
  if p0 = 0xED then 0x9F else if p0 = 0xF4 then 0x8F else 0xBF

/-- The function `utf8.DecodeRune`: the first rune of `p` and its width in bytes.
An empty input gives `(RuneError, 0)`, an invalid encoding gives `(RuneError, 1)`. -/
def DecodeRune (p : List Nat) : Nat × Nat :=
  match p with
  | [] => (RuneError, 0)
  | p0 :: t =>
    if p0 < 0x80 then (p0, 1)
    else if firstSize p0 = 0 then (RuneError, 1)
    else if t.length + 1 < firstSize p0 then (RuneError, 1)
    else if t.getD 0 0 < acceptLo p0 ∨ acceptHi p0 < t.getD 0 0 then (RuneError, 1)
    else if firstSize p0 ≤ 2 then (p0 % 32 * 64 + t.getD 0 0 % 64, 2)
    else if t.getD 1 0 < 0x80 ∨ 0xBF < t.getD 1 0 then (RuneError, 1)
    else if firstSize p0 ≤ 3 then
      (p0 % 16 * 4096 + t.getD 0 0 % 64 * 64 + t.getD 1 0 % 64, 3)
    else if t.getD 2 0 < 0x80 ∨ 0xBF < t.getD 2 0 then (RuneError, 1)
    else
      (p0 % 8 * 262144 + t.getD 0 0 % 64 * 4096 + t.getD 1 0 % 64 * 64 + t.getD 2 0 % 64, 4)

/-- The decoding loop `for len(s) > 0 { r, size := DecodeRune(s); s = s[size:] }`,
collecting every `(r, size)`. The counter is the number of bytes still to skip
because they belong to the rune decoded last. -/
def decodeFrom : Nat → List Nat → List (Nat × Nat)
  | _, [] => []
  | k + 1, _ :: t => decodeFrom k t
  | 0, b :: t => DecodeRune (b :: t) :: decodeFrom ((DecodeRune (b :: t)).2 - 1) t

/-- All `(rune, width)` pairs of a string, in order. -/
def decodeUnits (s : GoString) : List (Nat × Nat) := decodeFrom 0 s

/-- The runes of a string as the `regexp` and `range` loops see them: every byte of an
invalid encoding reads as `U+FFFD`. -/
def runes (s : GoString) : List Nat := (decodeUnits s).map Prod.fst

/-- A decoding result that signals an invalid encoding (`nextRune` in `regexp/syntax`:
`c == utf8.RuneError && size == 1`). -/
def isInvalidUnit (u : Nat × Nat) : Bool := u.1 == RuneError && u.2 == 1

/-- The function `utf8.Valid`. -/
def utf8Valid (s : GoString) : Bool := (decodeUnits s).all fun u => !isInvalidUnit u

/-! ## `regexp.QuoteMeta` and `strings.ReplaceAll` -/

/-- The predicate `special` of package `regexp`: the bytes `\.+*?()|[]{}^$`. -/
def special (b : Nat) : Bool :=
  decide (b ∈ [0x5C, 0x2E, 0x2B, 0x2A, 0x3F, 0x28, 0x29, 0x7C, 0x5B, 0x5D, 0x7B, 0x7D, 0x5E, 0x24])

/-- The function `regexp.QuoteMeta`: a backslash is put before every special byte. -/
def QuoteMeta (s : GoString) : GoString :=
  s.flatMap fun b => if special b then [0x5C, b] else [b]

/-- The loop of `strings.Replace` with `n < 0`, for a non-empty `old`: occurrences are
found left to right and do not overlap. The counter is the number of bytes of the
occurrence just replaced that are still to be dropped. -/
def replaceFrom (old new : GoString) : Nat → GoString → GoString
  | _, [] => []
  | k + 1, _ :: t => replaceFrom old new k t
  | 0, c :: t =>
    if old.isPrefixOf (c :: t) then new ++ replaceFrom old new (old.length - 1) t
    else c :: replaceFrom old new 0 t

/-- The function `strings.ReplaceAll(s, old, new)` for a non-empty `old` (the only use
in this package has `old = "\\*"`). -/
def ReplaceAll (s old new : GoString) : GoString := replaceFrom old new 0 s

/-! ## The fragment of `regexp` reached by `isEnabled` -/

/-- A single-rune matcher: a literal rune, or `.` (any rune but line feed, since the
flag `s` is off by default). -/
inductive Atom where
  | lit (r : Nat)
  | anyCharNotNL
  deriving DecidableEq, Repr

/-- An atom, possibly under `*`. -/
structure Piece where
  atom : Atom
  star : Bool
  deriving DecidableEq, Repr

/-- A parsed regular expression of the fragment: a concatenation of pieces. -/
abbrev Regexp := List Piece

/-- Errors of `regexp.Compile`. `outsideFragment` marks syntax that `regexp` accepts or
rejects by rules not modelled here (groups, classes, alternation, anchors, `+`, `?`,
counted repetition, alphanumeric escapes). -/
inductive RegexpError where
  | invalidUTF8
  | trailingBackslash
  | invalidEscape
  | missingRepeatArgument
  | invalidRepeatOp
  | outsideFragment
  deriving DecidableEq, Repr

/-- ASCII letters and digits (`isalnum` in `regexp/syntax`). -/
def isalnum (c : Nat) : Bool :=
  decide ((0x30 ≤ c ∧ c ≤ 0x39) ∨ (0x41 ≤ c ∧ c ≤ 0x5A) ∨ (0x61 ≤ c ∧ c ≤ 0x7A))

/-- The main loop of `syntax.Parse` with the flags `syntax.Perl`, over the decoded
pattern. `stack` holds the pieces read so far, last one first; `lastRepeat` tells
whether the previous token was a repetition operator. -/
def parseLoop : List (Nat × Nat) → List Piece → Bool → Except RegexpError Regexp
  | [], stack, _ => .ok stack.reverse
  | u :: t, stack, lastRepeat =>
    if isInvalidUnit u then .error .invalidUTF8
    else if u.1 = 0x5C then
      match t with
      | [] => .error .trailingBackslash
      | d :: t' =>
        if isInvalidUnit d then .error .invalidUTF8
        else if 0x80 ≤ d.1 then .error .invalidEscape
        else if isalnum d.1 then .error .outsideFragment
        else parseLoop t' (⟨.lit d.1, false⟩ :: stack) false
    else if u.1 = 0x2E then parseLoop t (⟨.anyCharNotNL, false⟩ :: stack) false
    else if u.1 = 0x2A then
      if lastRepeat then .error .invalidRepeatOp
      else
        match stack with
        | [] => .error .missingRepeatArgument
        | p :: stack' => parseLoop t (⟨p.atom, true⟩ :: stack') true
    else if u.1 ∈ [0x2B, 0x3F, 0x28, 0x29, 0x7C, 0x5B, 0x7B, 0x5E, 0x24] then
      .error .outsideFragment
    else parseLoop t (⟨.lit u.1, false⟩ :: stack) false

/-- The function `regexp.Compile` on the fragment. The limits that `regexp/syntax` puts on
the size of an expression, reached only by patterns of millions of runes, are left out. -/
def Compile (expr : GoString) : Except RegexpError Regexp :=
  parseLoop (decodeUnits expr) [] false

/-- Whether an atom accepts a rune of the input. -/
def Atom.accepts : Atom → Nat → Bool
  | .lit r, c => decide (c = r)
  | .anyCharNotNL, c => decide (c ≠ 0x0A)

/-- Matching `a*` followed by the continuation `k`: zero or more accepted runes. -/
def starLoop (a : Atom) (k : List Nat → Bool) : List Nat → Bool
  | [] => k []
  | c :: cs => k (c :: cs) || (a.accepts c && starLoop a k cs)

/-- Whether the expression matches some prefix of the input. -/
def matchHere : Regexp → List Nat → Bool
  | [], _ => true
  | ⟨a, false⟩ :: ps, cs =>
    match cs with
    | [] => false
    | c :: cs' => a.accepts c && matchHere ps cs'
  | ⟨a, true⟩ :: ps, cs => starLoop a (matchHere ps) cs

/-- Unanchored search: whether the expression matches starting at some position. -/
def matchFrom (re : Regexp) : List Nat → Bool
  | [] => matchHere re []
  | c :: cs => matchHere re (c :: cs) || matchFrom re cs

/-- The function `regexp.Match(pattern, b)`: compile, then report whether `b` contains
a match. -/
def regexpMatch (pattern : GoString) (b : GoString) : Except RegexpError Bool :=
  match Compile pattern with
  | .error e => .error e
  | .ok re => .ok (matchFrom re (runes b))

/-! ## Package `golog`: the pattern matcher -/

/-- The function `isEnabled(namespace, allowedNamespaces)` of `golog.go`. -/
def isEnabled (namespace_ : GoString) (allowedNamespaces : GoString) : Except RegexpError Bool :=
  let r := QuoteMeta allowedNamespaces
  let r := ReplaceAll r (str "\\*") (str ".*")
  regexpMatch r namespace_

/-! ## Specification-side and auxiliary definitions for the pattern matcher -/

/-- What `QuoteMeta` followed by the replacement of `\\*` by `.*` makes of one byte of the
pattern. -/
def trByte (b : Nat) : GoString :=
  if b = 0x2A then [0x2E, 0x2A] else if special b then [0x5C, b] else [b]

/-- The decoding of `trByte`: what the translation makes of one decoded rune. -/
def trUnit (u : Nat × Nat) : List (Nat × Nat) :=
  if u.1 = 0x2A then [(0x2E, 1), (0x2A, 1)] else if special u.1 then [(0x5C, 1), (u.1, 1)] else [u]

/-- The piece of the compiled expression that stands for one rune of the pattern. -/
def pieceOf (r : Nat) : Piece :=
  if r = 0x2A then ⟨.anyCharNotNL, true⟩ else ⟨.lit r, false⟩

/-- The glob reading of a pattern, on runes: `GlobMatch wild p t` says that the text `t`
as a whole matches the pattern `p`, where each `*` (`0x2A`) of `p` stands for any run,
possibly empty, of runes satisfying `wild`, and every other rune of `p` stands for
itself. -/
inductive GlobMatch (wild : Nat → Prop) : List Nat → List Nat → Prop
  | done : GlobMatch wild [] []
  | char (c : Nat) (p t : List Nat) : c ≠ 0x2A → GlobMatch wild p t →
      GlobMatch wild (c :: p) (c :: t)
  | star (c : Nat) (p run t : List Nat) : c = 0x2A → (∀ x ∈ run, wild x) →
      GlobMatch wild p t → GlobMatch wild (c :: p) (run ++ t)

/-- Some contiguous part of `text` matches the glob `p`. -/
def GlobFound (wild : Nat → Prop) (p text : List Nat) : Prop :=
  ∃ pre mid suf, text = pre ++ mid ++ suf ∧ GlobMatch wild p mid

/-! ## Package `fmt` and `strconv`: the calls made by this repository -/

/-- The operands handed to `fmt.Sprint` in this repository: strings and `int64` values. -/
inductive Arg where
  | string (s : GoString)
  | int64 (n : Int)
  deriving DecidableEq, Repr

/-- Decimal digits of a natural number, most significant first; the first argument
bounds the number of digits. -/
def digits : Nat → Nat → List Nat
  | 0, _ => []
  | fuel + 1, n => if n < 10 then [0x30 + n] else digits fuel (n / 10) ++ [0x30 + n % 10]

/-- The function `strconv.FormatInt(n, 10)`: what `%v` and `%d` print for an integer. -/
def FormatInt (n : Int) : GoString :=
  if n < 0 then 0x2D :: digits (n.natAbs + 1) n.natAbs else digits (n.toNat + 1) n.toNat

/-- Whether an operand is of kind string (`reflect.String`). -/
def Arg.isString : Arg → Bool
  | .string _ => true
  | .int64 _ => false

/-- What `printArg(arg, 'v')` writes for an operand. -/
def Arg.print : Arg → GoString
  | .string s => s
  | .int64 n => FormatInt n

/-- The loop of `(*pp).doPrint` from the second operand on: a space is added between
two operands when neither is a string. -/
def doPrintFrom : Bool → List Arg → GoString
  | _, [] => []
  | prevString, a :: rest =>
    (if !a.isString && !prevString then [0x20] else []) ++ a.print ++ doPrintFrom a.isString rest

/-- The function `fmt.Sprint`. -/
def Sprint : List Arg → GoString
  | [] => []
  | a :: rest => a.print ++ doPrintFrom a.isString rest

/-! ## Package `internal/types` -/

/-- The Go type `types.AddColorFunc`, `func(...interface{}) string`. -/
abbrev AddColorFunc := List Arg → GoString

/-- The constant `types.LogLevelDebug`; `types.LogLevel` is `int`. -/
def LogLevelDebug : Int := 0

/-- The constant `types.LogLevelInfo`. -/
def LogLevelInfo : Int := 1

/-- The constant `types.LogLevelWarn`. -/
def LogLevelWarn : Int := 2

/-- The constant `types.LogLevelError`. -/
def LogLevelError : Int := 3

/-- The `error` values this repository returns: `*InvalidNamespaceError`,
`*InvalidLogLevelError` with its field `error_numer`, and the error of `regexp.Match`. -/
inductive Error where
  | InvalidNamespaceError
  | InvalidLogLevelError (error_numer : Int)
  | regexp (e : RegexpError)
  deriving DecidableEq, Repr

/-- The method `LogLevel.String`: the name and the error (`none` is `nil`). -/
def LogLevel.String (ll : Int) : GoString × Option Error :=
  if ll = LogLevelDebug then (str "DEBUG", none)
  else if ll = LogLevelInfo then (str "INFO", none)
  else if ll = LogLevelWarn then (str "WARN", none)
  else if ll = LogLevelError then (str "ERROR", none)
  else ([], some (.InvalidLogLevelError ll))

/-- The function `types.LogLevelFromString`: the level and the error (`none` is `nil`). -/
def LogLevelFromString (levelStr : GoString) : Int × Option Error :=
  if levelStr = str "DEBUG" then (LogLevelDebug, none)
  else if levelStr = str "INFO" then (LogLevelInfo, none)
  else if levelStr = str "WARN" then (LogLevelWarn, none)
  else if levelStr = str "ERROR" then (LogLevelError, none)
  else (-1, some (.InvalidLogLevelError (-1)))

/-- The constant `types.DEBUG`. -/
def DEBUG : GoString := str "DEBUG"

/-- The constant `types.DEBUG_LEVEL`. -/
def DEBUG_LEVEL : GoString := str "DEBUG_LEVEL"

/-- The constant `types.DEBUG_COLOR`. -/
def DEBUG_COLOR : GoString := str "DEBUG_COLOR"

/-! ## The world outside the logger: sinks, environment, clock -/

/-- A non-nil `io.Writer`: `os.Stdout`, `io.Discard`, or any other sink, told apart by
a number (a `*bytes.Buffer`, a file, ...). -/
inductive Writer where
  | Stdout
  | Discard
  | other (id : Nat)
  deriving DecidableEq, Repr

/-- The state outside the logger.
* `env` is the process environment read by `os.LookupEnv`.
* `clock k` is the reading the clock gives the `k`-th time it is read, in nanoseconds.
* `tick` counts the readings taken so far.
* `writes` lists the `Write` calls made on sinks so far, in order. -/
structure World where
  env : GoString → Option GoString
  clock : Nat → Int
  tick : Nat
  writes : List (Writer × GoString)

/-- The function `os.LookupEnv`: `none` when the variable is not set. -/
def LookupEnv (key : GoString) (w : World) : Option GoString := w.env key

/-- The idiom `x, exists := os.LookupEnv(key); if !exists || x == "" { x = dflt }` of
`New`. -/
def lookupOr (key dflt : GoString) (w : World) : GoString :=
  match LookupEnv key w with
  | none => dflt
  | some v => if v = [] then dflt else v

/-- The function `time.Now`: takes the next reading of the clock. A `time.Time` is
modelled as `Option Int`: `none` is the zero `Time` (for which `IsZero` holds), which
`time.Now` never returns, and `some t` is an instant with reading `t`. -/
def Now (w : World) : Option Int × World :=
  (some (w.clock w.tick), { w with tick := w.tick + 1 })

/-- The method `Time.IsZero`. -/
def IsZero (t : Option Int) : Bool := t.isNone

/-- The function `time.Since(t)`: the next reading of the clock minus `t`. For the zero
`Time` the subtraction saturates at the largest `Duration`. -/
def Since (t : Option Int) (w : World) : Int × World :=
  match t with
  | some t0 => (w.clock w.tick - t0, { w with tick := w.tick + 1 })
  | none => (9223372036854775807, { w with tick := w.tick + 1 })

/-- The method `Duration.Milliseconds`: `int64(d) / 1e6`, Go's truncating division. -/
def Milliseconds (d : Int) : Int := Int.tdiv d 1000000

/-! ## Package `request` and package `loggers/text` -/

/-- The struct `request.LogRequest`. -/
structure LogRequest where
  Level : Int
  Namespace : GoString
  Message : GoString
  Writer : Writer
  Delay : Int
  AddColor : AddColorFunc

/-- A non-nil value of the interface `LoggerImpl`: what its method `Log` does to the
world when handed a request. -/
structure LoggerImpl where
  Log : LogRequest → World → World

/-- The call `fmt.Fprintf(w, format, ...)` as far as this repository uses it: one
`Write` call on `w` with the formatted text. -/
def Fprint (writer : Writer) (text : GoString) (w : World) : World :=
  { w with writes := w.writes ++ [(writer, text)] }

/-- The method `(*TextLogger).Log`: `Fprintf` with the format `"%s [%s] %s %s"` and four
string operands, each copied by its `%s`. -/
def TextLogger.Log (lr : LogRequest) (w : World) : World :=
  let levelStr := (LogLevel.String lr.Level).1
  Fprint lr.Writer
    (lr.AddColor [.string lr.Namespace] ++ str " [" ++ levelStr ++ str "] " ++ lr.Message ++
      str " " ++ lr.AddColor [.int64 (Milliseconds lr.Delay), .string (str "ms")]) w

/-- The value `&text.TextLogger{}`. -/
def TextLogger : LoggerImpl := ⟨TextLogger.Log⟩

/-! ## Package `colors` -/

/-- The libraries behind `colors.RandomColor`, taken as given: `md5.Sum` and the method
`Sprint` of the value `color.RGB(r, g, b)` of `github.com/fatih/color`. -/
structure ColorLib where
  md5Sum : GoString → List Nat
  rgbSprint : Nat → Nat → Nat → AddColorFunc

/-- The method value `colors.RandomColor(t).Sprint`: the colour is made of the first
three bytes of the MD5 hash of `t`. -/
def RandomColorSprint (lib : ColorLib) (t : GoString) : AddColorFunc :=
  let hash := lib.md5Sum t
  lib.rgbSprint (hash.getD 0 0) (hash.getD 1 0) (hash.getD 2 0)

/-! ## Package `golog`: the logger -/

/-- The struct `Logger`. The zero `lastCall` is `none`. -/
structure Logger where
  namespace_ : GoString
  enabled : Bool
  writer : Writer
  loggerImpl : LoggerImpl
  logLevel : Int
  addColor : AddColorFunc
  lastCall : Option Int

/-- An option `func(*Logger)`: it may change the logger under construction and act on
the world. -/
abbrev LoggerOption := Logger → World → Logger × World

/-- The option `WithWriter(writer)`; `none` is the nil writer. -/
def WithWriter (writer : Option Writer) : LoggerOption := fun l w =>
  let writer := match writer with
    | none => Writer.Discard
    | some x => x
  ({ l with writer := writer }, w)

/-- The option `WithLoggerImpl(loggerImpl)`. -/
def WithLoggerImpl (loggerImpl : LoggerImpl) : LoggerOption := fun l w =>
  ({ l with loggerImpl := loggerImpl }, w)

/-- The loop `for _, o := range options { o(l) }`. -/
def applyOptions : List LoggerOption → Logger → World → Logger × World
  | [], l, w => (l, w)
  | o :: rest, l, w => applyOptions rest (o l w).1 (o l w).2

/-- The function `New(namespace, options...)`. -/
def New (lib : ColorLib) (namespace_ : GoString) (options : List LoggerOption) (w : World) :
    Except Error Logger × World :=
  if namespace_ = [] then (.error .InvalidNamespaceError, w)
  else
    let allowedNamespaces := lookupOr DEBUG (str "*") w
    let levelStr := lookupOr DEBUG_LEVEL (str "WARN") w
    let colorEnabled := (LookupEnv DEBUG_COLOR w).isSome
    let addColor : AddColorFunc := if colorEnabled then RandomColorSprint lib namespace_ else Sprint
    match LogLevelFromString levelStr with
    | (_, some err) => (.error err, w)
    | (ll, none) =>
      match isEnabled namespace_ allowedNamespaces with
      | .error err => (.error (.regexp err), w)
      | .ok enabled =>
        let l : Logger :=
          { namespace_ := namespace_
            writer := .Stdout
            enabled := enabled
            logLevel := ll
            loggerImpl := TextLogger
            addColor := addColor
            lastCall := none }
        ((applyOptions options l w).1 |> .ok, (applyOptions options l w).2)

/-- The method `(*Logger).getNamespace`. -/
def Logger.getNamespace (l : Logger) : GoString := l.namespace_

/-- The method `(*Logger).New(namespace)`; `fmt.Sprintf("%s:%s", a, b)` is `a`, a colon,
`b`. The parent is not changed: only the new logger and the world are returned. -/
def Logger.New (lib : ColorLib) (l : Logger) (namespace_ : GoString) (w : World) :
    Except Error Logger × World :=
  if namespace_ = [] then (.error .InvalidNamespaceError, w)
  else
    Golog.New lib (l.getNamespace ++ str ":" ++ namespace_)
      [WithWriter (some l.writer), WithLoggerImpl l.loggerImpl] w

/-- A run of emissions: the world, and the requests handed to formatters so far (the
latter is kept for the statements only; no code reads it). -/
structure Run where
  world : World
  calls : List LogRequest

/-- The method `(*Logger).log(ll, message)`: the logger after the call and the run after
the call. -/
def Logger.log (l : Logger) (ll : Int) (message : GoString) (r : Run) : Logger × Run :=
  if l.enabled && decide (l.logLevel ≤ ll) then
    let seeded : Logger × World :=
      if IsZero l.lastCall then ({ l with lastCall := (Now r.world).1 }, (Now r.world).2)
      else (l, r.world)
    let l1 := seeded.1
    let delay := Since l1.lastCall seeded.2
    let req : LogRequest :=
      { Level := ll
        Namespace := l1.namespace_
        Message := message
        Writer := l1.writer
        Delay := delay.1
        AddColor := l1.addColor }
    let w3 := l1.loggerImpl.Log req delay.2
    ({ l1 with lastCall := (Now w3).1 }, { world := (Now w3).2, calls := r.calls ++ [req] })
  else (l, r)

/-- The method `(*Logger).Debug`. -/
def Logger.Debug (l : Logger) (message : GoString) (r : Run) : Logger × Run :=
  l.log LogLevelDebug message r

/-- The method `(*Logger).Info`. -/
def Logger.Info (l : Logger) (message : GoString) (r : Run) : Logger × Run :=
  l.log LogLevelInfo message r

/-- The method `(*Logger).Warn`. -/
def Logger.Warn (l : Logger) (message : GoString) (r : Run) : Logger × Run :=
  l.log LogLevelWarn message r

/-- The method `(*Logger).Error`. -/
def Logger.Error (l : Logger) (message : GoString) (r : Run) : Logger × Run :=
  l.log LogLevelError message r

/-- A sequence of calls of `log` on one logger, in order. -/
def Logger.logAll (l : Logger) : List (Int × GoString) → Run → Logger × Run
  | [], r => (l, r)
  | e :: rest, r => Logger.logAll (l.log e.1 e.2 r).1 rest (l.log e.1 e.2 r).2

/-! ## Error messages, the options of the package, traces of emissions -/

/-- The method `(*InvalidNamespaceError).Error`. -/
def InvalidNamespaceError.Error : GoString := str "Invalid namespace: it must not be empty"

/-- The method `(*InvalidLogLevelError).Error`:
`fmt.Sprintf("Invalid log level: %d", e.error_numer)`. -/
def InvalidLogLevelError.Error (error_numer : Int) : GoString :=
  str "Invalid log level: " ++ FormatInt error_numer

/-- The four canonical level names. -/
def levelNames : List GoString := [str "DEBUG", str "INFO", str "WARN", str "ERROR"]

/-- An option built with one of the two constructors the package offers, `WithWriter`
and `WithLoggerImpl`. -/
inductive StdOption where
  | withWriter (writer : Option Writer)
  | withLoggerImpl (loggerImpl : LoggerImpl)

/-- The `func(*Logger)` value an option stands for. -/
def StdOption.toOption : StdOption → LoggerOption
  | .withWriter writer => WithWriter writer
  | .withLoggerImpl loggerImpl => WithLoggerImpl loggerImpl

/-- The argument of the last `WithWriter` in a list of options, if there is one. -/
def lastWriter : List StdOption → Option (Option Writer)
  | [] => none
  | o :: rest =>
    match lastWriter rest with
    | some writer => some writer
    | none =>
      match o with
      | .withWriter writer => some writer
      | .withLoggerImpl _ => none

/-- The argument of the last `WithLoggerImpl` in a list of options, if there is one. -/
def lastLoggerImpl : List StdOption → Option LoggerImpl
  | [] => none
  | o :: rest =>
    match lastLoggerImpl rest with
    | some loggerImpl => some loggerImpl
    | none =>
      match o with
      | .withWriter _ => none
      | .withLoggerImpl loggerImpl => some loggerImpl

/-- The writer a logger ends up with: that of the last `WithWriter` (the discard sink
for a nil argument), standard output when there is none. -/
def writerAfter (opts : List StdOption) : Writer :=
  match lastWriter opts with
  | none => .Stdout
  | some none => .Discard
  | some (some writer) => writer

/-- The formatter a logger ends up with: that of the last `WithLoggerImpl`, the text
formatter when there is none. -/
def loggerImplAfter (opts : List StdOption) : LoggerImpl :=
  match lastLoggerImpl opts with
  | none => TextLogger
  | some loggerImpl => loggerImpl

/-- The successive readings of the clock never decrease. -/
def ClockMonotone (w : World) : Prop := ∀ i j, i ≤ j → w.clock i ≤ w.clock j

/-- A formatter that leaves the clock alone: it may read it, but it neither replaces it
nor takes back readings. -/
def KeepsClock (impl : LoggerImpl) : Prop :=
  ∀ req w, (impl.Log req w).clock = w.clock ∧ w.tick ≤ (impl.Log req w).tick

/-- The order on `lastCall` values: the unset value comes before every instant. -/
def lastCallLE : Option Int → Option Int → Prop
  | none, _ => True
  | some _, none => False
  | some a, some b => a ≤ b

/-- The states passed through by a sequence of calls of `log`: the state before the
first call, then the state after each call. -/
def Logger.logTrace (l : Logger) : List (Int × GoString) → Run → List (Logger × Run)
  | [], r => [(l, r)]
  | e :: rest, r => (l, r) :: Logger.logTrace (l.log e.1 e.2 r).1 rest (l.log e.1 e.2 r).2

/-- The world after one admitted emission that hands `req` to the formatter `impl`: the
clock is read `readings` times before the formatter runs, the formatter acts on the
world, and `time.Now` reads the clock once more. -/
def dispatch (impl : LoggerImpl) (readings : Nat) (req : LogRequest) (w : World) : World :=
  (Now (impl.Log req { w with tick := w.tick + readings })).2

/-- The world after the formatter `impl` has been handed the requests of a list one
after the other. `fresh` tells whether `lastCall` is unset before the first of them: the
clock is then read twice before the first formatter call, and once before every other. -/
def dispatchAll (impl : LoggerImpl) : Bool → List LogRequest → World → World
  | _, [], w => w
  | fresh, req :: rest, w =>
    dispatchAll impl false rest (dispatch impl (if fresh then 2 else 1) req w)

/-- A chain of calls of `(*Logger).New`, each on the logger the previous one returned;
it stops at the first error. -/
def Logger.descend (lib : ColorLib) (l : Logger) :
    List GoString → World → Except Golog.Error Logger × World
  | [], w => (.ok l, w)
  | s :: rest, w =>
    match l.New lib s w with
    | (.ok c, w') => Logger.descend lib c rest w'
    | (.error err, w') => (.error err, w')

/-! ## Concrete inputs used in examples -/

/-- A sink other than standard output and the discard sink, such as the buffer of
`TestLoggerWithWriter`. -/
def buffer : Writer := .other 0

/-- An environment with `DEBUG=*` and `DEBUG_LEVEL=DEBUG`, as set by
`TestLoggerWithWriter`. -/
def testEnv (key : GoString) : Option GoString :=
  if key = DEBUG then some (str "*")
  else if key = DEBUG_LEVEL then some (str "DEBUG")
  else none

/-- A world with the environment of `TestLoggerWithWriter`, nothing written yet, and a
clock whose successive readings are `step` nanoseconds apart. -/
def testWorld (step : Int) : World :=
  { env := testEnv, clock := fun k => step * k, tick := 0, writes := [] }

/-- A colour library whose `Sprint` adds no colour; which one is used does not matter
when `DEBUG_COLOR` is unset. -/
def plainLib : ColorLib := { md5Sum := fun _ => [], rgbSprint := fun _ _ _ => Sprint }

/-- A logger that is disabled. -/
def disabledLogger : Logger :=
  { namespace_ := str "app", enabled := false, writer := buffer, loggerImpl := TextLogger,
    logLevel := LogLevelDebug, addColor := Sprint, lastCall := none }

/-- An enabled logger with threshold `WARN`. -/
def warnLogger : Logger :=
  { namespace_ := str "app", enabled := true, writer := buffer, loggerImpl := TextLogger,
    logLevel := LogLevelWarn, addColor := Sprint, lastCall := none }

/-- A world with an empty environment, nothing written yet, and a clock that reads
`0, 1, 2, ...`. -/
def bareWorld : World :=
  { env := fun _ => none, clock := fun k => k, tick := 0, writes := [] }

/-- A list of options of the package: a nil writer, then a formatter, then the buffer. -/
def someOptions : List StdOption :=
  [.withWriter none, .withLoggerImpl TextLogger, .withWriter (some buffer)]

/-- A world whose environment sets `DEBUG` to the single byte `0xFF`, which is not valid
UTF-8, and nothing else. -/
def badPatternWorld : World :=
  { env := fun key => if key = DEBUG then some [0xFF] else none
    clock := fun k => k, tick := 0, writes := [] }

/-! # Theorems -/

/-! ## The pattern matcher -/

/-- The table of `TestIsEnabled` in `golog_test.go`. -/
theorem TestIsEnabled_table :
    isEnabled (str "test") (str "test") = .ok true ∧
    isEnabled (str "test") (str "test*") = .ok true ∧
    isEnabled (str "test") (str "*") = .ok true ∧
    isEnabled (str "test") (str "other") = .ok false ∧
    isEnabled (str "test:subnamespace") (str "test:*") = .ok true ∧
    isEnabled (str "test:subnamespace") (str "test:sub*") = .ok true ∧
    isEnabled (str "test:subnamespace") (str "test:foo*") = .ok false := by
  refine ⟨?_, ?_, ?_, ?_, ?_, ?_, ?_⟩ <;> decide

theorem str_quoted_star : str "\\*" = [0x5C, 0x2A] := by decide

theorem str_dot_star : str ".*" = [0x2E, 0x2A] := by decide

theorem special_iff (b : Nat) : special b = true ↔
    b = 92 ∨ b = 46 ∨ b = 43 ∨ b = 42 ∨ b = 63 ∨ b = 40 ∨ b = 41 ∨ b = 124 ∨ b = 91 ∨
      b = 93 ∨ b = 123 ∨ b = 125 ∨ b = 94 ∨ b = 36 := by
  simp [special]

theorem special_lt (b : Nat) (h : special b = true) : b < 0x80 := by
  rw [special_iff] at h
  omega

theorem QuoteMeta_cons (b : Nat) (s : GoString) :
    QuoteMeta (b :: s) = (if special b then [0x5C, b] else [b]) ++ QuoteMeta s := by
  simp [QuoteMeta]

theorem QuoteMeta_head (s t : GoString) : QuoteMeta s ≠ 0x2A :: t := by
  cases s with
  | nil => simp [QuoteMeta]
  | cons b s =>
    rw [QuoteMeta_cons]
    by_cases hb : special b = true
    · simp [hb]
    · simp only [hb]
      intro h
      simp at h
      apply hb
      rw [h.1]
      decide

theorem replaceFrom_QuoteMeta (s : GoString) :
    replaceFrom [0x5C, 0x2A] [0x2E, 0x2A] 0 (QuoteMeta s) = s.flatMap trByte := by
  induction s with
  | nil => simp [QuoteMeta, replaceFrom]
  | cons b s ih =>
    rw [QuoteMeta_cons, List.flatMap_cons]
    by_cases hstar : b = 0x2A
    · subst hstar
      simp [special, trByte, replaceFrom, List.isPrefixOf, ih]
    · by_cases hb : special b = true
      · simp only [hb, if_true, trByte, hstar, if_false]
        by_cases hbs : b = 0x5C
        · subst hbs
          cases hq : QuoteMeta s with
          | nil => 
            rw [hq] at ih
            simp [replaceFrom, List.isPrefixOf, ← ih]
          | cons c q =>
            have hc : c ≠ 0x2A := by
              intro hc
              exact QuoteMeta_head s q (by rw [hq, hc])
            rw [hq] at ih
            simp [replaceFrom, List.isPrefixOf, hc, Ne.symm hc, ← ih]
        · simp [replaceFrom, List.isPrefixOf, hstar, hbs, Ne.symm hstar, Ne.symm hbs, ih]
      · have hbs : b ≠ 0x5C := by
          intro h
          apply hb
          rw [h]
          decide
        simp [hb, trByte, hstar, replaceFrom, List.isPrefixOf, hbs, Ne.symm hbs, ih]

theorem translate_eq (p : GoString) :
    ReplaceAll (QuoteMeta p) (str "\\*") (str ".*") = p.flatMap trByte := by
  rw [str_quoted_star, str_dot_star, ReplaceAll, replaceFrom_QuoteMeta]

theorem firstSize_cases (p0 : Nat) (h0 : 0x80 ≤ p0) :
    firstSize p0 = 0 ∨ (firstSize p0 = 2 ∧ 0xC2 ≤ p0 ∧ p0 ≤ 0xDF) ∨
      (firstSize p0 = 3 ∧ 0xE0 ≤ p0 ∧ p0 ≤ 0xEF) ∨ (firstSize p0 = 4 ∧ 0xF0 ≤ p0 ∧ p0 ≤ 0xF4) := by
  unfold firstSize
  split_ifs <;> omega

theorem accept_range (p0 : Nat) : 0x80 ≤ acceptLo p0 ∧ acceptHi p0 ≤ 0xBF := by
  unfold acceptLo acceptHi
  split_ifs <;> omega

theorem acceptLo_E0 (p0 : Nat) (h : 0xE0 ≤ p0) (h2 : p0 ≤ 0xEF) :
    0xA0 ≤ acceptLo p0 ∨ 1 ≤ p0 % 16 := by
  unfold acceptLo
  split_ifs <;> omega

theorem acceptLo_F0 (p0 : Nat) (h : 0xF0 ≤ p0) (h2 : p0 ≤ 0xF4) :
    0x90 ≤ acceptLo p0 ∨ 1 ≤ p0 % 8 := by
  unfold acceptLo
  split_ifs <;> omega

theorem len2 (n : Nat) : (n + 1 + 1 < 2) = False := by simp

theorem len3 (n : Nat) : (n + 1 + 1 + 1 < 3) = False := by simp

theorem len4 (n : Nat) : (n + 1 + 1 + 1 + 1 < 4) = False := by simp

/-- A lead byte either fails to decode, or decodes together with continuation bytes
`c`, whatever follows them. -/
theorem DecodeRune_lead (p0 : Nat) (t : List Nat) (h0 : 0x80 ≤ p0) :
    DecodeRune (p0 :: t) = (RuneError, 1) ∨
    ∃ c t', t = c ++ t' ∧ c.length + 1 = (DecodeRune (p0 :: t)).2 ∧ (∀ b ∈ c, 0x80 ≤ b) ∧
      0x80 ≤ (DecodeRune (p0 :: t)).1 ∧ ∀ X, DecodeRune (p0 :: (c ++ X)) = DecodeRune (p0 :: t) := by
  have hlt : ¬ p0 < 0x80 := by omega
  have hacc := accept_range p0
  rcases firstSize_cases p0 h0 with hs | ⟨hs, h1, h2⟩ | ⟨hs, h1, h2⟩ | ⟨hs, h1, h2⟩
  · left
    simp [DecodeRune, hlt, hs]
  · rcases t with _ | ⟨b1, t1⟩
    · left
      simp [DecodeRune, hlt, hs]
    · by_cases hr : b1 < acceptLo p0 ∨ acceptHi p0 < b1
      · left
        simp [DecodeRune, hlt, hs, hr]
      · right
        refine ⟨[b1], t1, rfl, ?_⟩
        simp [DecodeRune, hlt, hs, hr, len2]
        omega
  · rcases t with _ | ⟨b1, _ | ⟨b2, t2⟩⟩
    · left
      simp [DecodeRune, hlt, hs]
    · left
      simp [DecodeRune, hlt, hs]
    · by_cases hr : b1 < acceptLo p0 ∨ acceptHi p0 < b1
      · left
        simp [DecodeRune, hlt, hs, hr]
      · by_cases hr2 : b2 < 0x80 ∨ 0xBF < b2
        · left
          simp [DecodeRune, hlt, hs, hr, hr2]
        · right
          refine ⟨[b1, b2], t2, rfl, ?_⟩
          have := acceptLo_E0 p0 h1 h2
          simp [DecodeRune, hlt, hs, hr, hr2, len3]
          omega
  · rcases t with _ | ⟨b1, _ | ⟨b2, _ | ⟨b3, t3⟩⟩⟩
    · left
      simp [DecodeRune, hlt, hs]
    · left
      simp [DecodeRune, hlt, hs]
    · left
      simp [DecodeRune, hlt, hs]
    · by_cases hr : b1 < acceptLo p0 ∨ acceptHi p0 < b1
      · left
        simp [DecodeRune, hlt, hs, hr]
      · by_cases hr2 : b2 < 0x80 ∨ 0xBF < b2
        · left
          simp [DecodeRune, hlt, hs, hr, hr2]
        · by_cases hr3 : b3 < 0x80 ∨ 0xBF < b3
          · left
            simp [DecodeRune, hlt, hs, hr, hr2, hr3]
          · right
            refine ⟨[b1, b2, b3], t3, rfl, ?_⟩
            have := acceptLo_F0 p0 h1 h2
            simp [DecodeRune, hlt, hs, hr, hr2, hr3, len4]
            omega

theorem decodeFrom_ascii (b : Nat) (t : List Nat) (h : b < 0x80) :
    decodeFrom 0 (b :: t) = (b, 1) :: decodeFrom 0 t := by
  simp [decodeFrom, DecodeRune, h]

theorem decodeFrom_skip (c X : List Nat) : decodeFrom c.length (c ++ X) = decodeFrom 0 X := by
  induction c with
  | nil => rfl
  | cons b c ih => simpa [decodeFrom] using ih

theorem trByte_high (b : Nat) (h : 0x80 ≤ b) : trByte b = [b] := by
  have hs : special b = false := by
    cases hsp : special b with
    | false => rfl
    | true => have := special_lt b hsp; omega
  have h2 : b ≠ 0x2A := by omega
  simp [trByte, hs, h2]

theorem flatMap_trByte_high (c : List Nat) (h : ∀ b ∈ c, 0x80 ≤ b) : c.flatMap trByte = c := by
  induction c with
  | nil => rfl
  | cons b c ih =>
    rw [List.flatMap_cons, trByte_high b (h b (by simp)), ih (fun x hx => h x (by simp [hx]))]
    rfl

theorem trUnit_high (u : Nat × Nat) (h : 0x80 ≤ u.1) : trUnit u = [u] := by
  have hs : special u.1 = false := by
    cases hsp : special u.1 with
    | false => rfl
    | true => have := special_lt u.1 hsp; omega
  have h2 : u.1 ≠ 0x2A := by omega
  simp [trUnit, hs, h2]

theorem decodeFrom_trByte_ascii (b : Nat) (h : b < 0x80) (X : List Nat) :
    decodeFrom 0 (trByte b ++ X) = trUnit (b, 1) ++ decodeFrom 0 X := by
  unfold trByte trUnit
  split_ifs with h1 h2
  · simp [decodeFrom_ascii]
  · simp [decodeFrom_ascii, h]
  · simp [decodeFrom_ascii, h]

theorem decode_translate_aux (n : Nat) : ∀ p : GoString, p.length ≤ n → utf8Valid p = true →
    decodeFrom 0 (p.flatMap trByte) = (decodeFrom 0 p).flatMap trUnit := by
  induction n with
  | zero =>
    intro p hp _
    have : p = [] := List.length_eq_zero.mp (by omega)
    subst this
    rfl
  | succ n ih =>
    intro p hp hv
    rcases p with _ | ⟨p0, t⟩
    · rfl
    · by_cases h0 : p0 < 0x80
      · rw [List.flatMap_cons, decodeFrom_trByte_ascii p0 h0, decodeFrom_ascii p0 t h0,
          List.flatMap_cons]
        have hvt : utf8Valid t = true := by
          simp only [utf8Valid, decodeUnits, decodeFrom_ascii p0 t h0, List.all_cons,
            Bool.and_eq_true] at hv ⊢
          exact hv.2
        rw [ih t (by simpa using hp) hvt]
      · rcases DecodeRune_lead p0 t (by omega) with hinv | ⟨c, t', rfl, hlen, hc, hr, hX⟩
        · exfalso
          simp [utf8Valid, decodeUnits, decodeFrom, hinv, isInvalidUnit] at hv
        · have hsz : (DecodeRune (p0 :: (c ++ t'))).2 - 1 = c.length := by omega
          have hd : decodeFrom 0 (p0 :: (c ++ t')) =
              DecodeRune (p0 :: (c ++ t')) :: decodeFrom 0 t' := by
            simp only [decodeFrom, hsz, decodeFrom_skip]
          have hvt : utf8Valid t' = true := by
            simp only [utf8Valid, decodeUnits, hd, List.all_cons, Bool.and_eq_true] at hv ⊢
            exact hv.2
          have hd2 : decodeFrom 0 (p0 :: (c ++ t'.flatMap trByte)) =
              DecodeRune (p0 :: (c ++ t')) :: decodeFrom 0 (t'.flatMap trByte) := by
            simp only [decodeFrom, hX, hsz, decodeFrom_skip]
          rw [List.flatMap_cons, trByte_high p0 (by omega), List.flatMap_append,
            flatMap_trByte_high c hc, List.singleton_append, hd2, hd, List.flatMap_cons,
            trUnit_high _ hr, ih t' (by simp at hp; omega) hvt]
          rfl

theorem decodeUnits_translate (p : GoString) (hv : utf8Valid p = true) :
    decodeUnits (p.flatMap trByte) = (decodeUnits p).flatMap trUnit :=
  decode_translate_aux p.length p (le_refl _) hv

theorem isInvalidUnit_ascii (r n : Nat) (h : r < 0x80) : isInvalidUnit (r, n) = false := by
  have : r ≠ RuneError := by simp [RuneError]; omega
  simp [isInvalidUnit, this]

theorem parseLoop_translate (us : List (Nat × Nat)) :
    (∀ u ∈ us, isInvalidUnit u = false) → ∀ stack lr,
    parseLoop (us.flatMap trUnit) stack lr = .ok (stack.reverse ++ us.map fun u => pieceOf u.1) := by
  induction us with
  | nil =>
    intro _ stack lr
    simp [parseLoop]
  | cons u us ih =>
    intro hv stack lr
    have hu : isInvalidUnit u = false := hv u (by simp)
    have hrest : ∀ v ∈ us, isInvalidUnit v = false := fun v hv' => hv v (by simp [hv'])
    rw [List.flatMap_cons]
    by_cases hstar : u.1 = 0x2A
    · have hp : pieceOf u.1 = ⟨.anyCharNotNL, true⟩ := by simp [pieceOf, hstar]
      have e1 : isInvalidUnit (0x2E, 1) = false := by decide
      have e2 : isInvalidUnit (0x2A, 1) = false := by decide
      simp only [trUnit, hstar, if_true, List.cons_append, List.nil_append, List.map_cons, hp]
      rw [parseLoop.eq_def]
      simp only [e1, Bool.false_eq_true, if_false, Nat.reduceEqDiff, if_true]
      rw [parseLoop.eq_def]
      simp only [e2, Bool.false_eq_true, if_false, Nat.reduceEqDiff, if_true]
      rw [ih hrest]
      simp [pieceOf]
    · by_cases hsp : special u.1 = true
      · have hlt := special_lt u.1 hsp
        have hnl : ¬ (0x80 ≤ u.1) := by omega
        have hinv := isInvalidUnit_ascii u.1 1 hlt
        have hal : isalnum u.1 = false := by
          rw [special_iff] at hsp
          simp only [isalnum, decide_eq_false_iff_not]
          omega
        have hp : pieceOf u.1 = ⟨.lit u.1, false⟩ := by simp [pieceOf, hstar]
        have e1 : isInvalidUnit (0x5C, 1) = false := by decide
        simp only [trUnit, hstar, hsp, if_true, if_false, List.cons_append, List.nil_append,
          List.map_cons, hp]
        rw [parseLoop.eq_def]
        simp only [e1, Bool.false_eq_true, if_false, if_true, hinv, hnl, hal]
        rw [ih hrest]
        simp
      · have h1 : u.1 ≠ 0x5C := fun h => hsp (by rw [h]; decide)
        have h2 : u.1 ≠ 0x2E := fun h => hsp (by rw [h]; decide)
        have h3 : u.1 ∉ [0x2B, 0x3F, 0x28, 0x29, 0x7C, 0x5B, 0x7B, 0x5E, 0x24] := by
          intro h
          apply hsp
          rw [special_iff]
          simp at h
          omega
        have hp : pieceOf u.1 = ⟨.lit u.1, false⟩ := by simp [pieceOf, hstar]
        simp only [trUnit, hstar, hsp, Bool.false_eq_true, if_false, List.map_cons, hp,
          List.singleton_append]
        rw [parseLoop.eq_def]
        simp only [hu, Bool.false_eq_true, if_false, h1, h2, hstar, h3]
        rw [ih hrest]
        simp

theorem starLoop_iff (a : Atom) (k : List Nat → Bool) (t : List Nat) :
    starLoop a k t = true ↔
      ∃ run rest, t = run ++ rest ∧ (∀ x ∈ run, a.accepts x = true) ∧ k rest = true := by
  induction t with
  | nil =>
    simp only [starLoop]
    constructor
    · intro h
      exact ⟨[], [], rfl, by simp, h⟩
    · rintro ⟨run, rest, h, -, hk⟩
      have : rest = [] := by
        have := congrArg List.length h
        simp at this
        exact List.length_eq_zero.mp (by omega)
      rw [this] at hk
      exact hk
  | cons c cs ih =>
    simp only [starLoop, Bool.or_eq_true, Bool.and_eq_true, ih]
    constructor
    · rintro (h | ⟨hc, run, rest, h, hrun, hk⟩)
      · exact ⟨[], c :: cs, rfl, by simp, h⟩
      · refine ⟨c :: run, rest, by simp [h], ?_, hk⟩
        intro x hx
        rcases List.mem_cons.mp hx with rfl | hx
        · exact hc
        · exact hrun x hx
    · rintro ⟨run, rest, h, hrun, hk⟩
      rcases run with _ | ⟨r, run⟩
      · left
        simp at h
        rw [h]
        exact hk
      · right
        simp at h
        refine ⟨?_, run, rest, h.2, fun x hx => hrun x (by simp [hx]), hk⟩
        rw [h.1]
        exact hrun r (by simp)

theorem matchHere_iff (p : List Nat) : ∀ t : List Nat,
    matchHere (p.map pieceOf) t = true ↔
      ∃ mid suf, t = mid ++ suf ∧ GlobMatch (fun x => x ≠ 0x0A) p mid := by
  induction p with
  | nil =>
    intro t
    simp only [List.map_nil, matchHere, true_iff]
    exact ⟨[], t, rfl, GlobMatch.done⟩
  | cons c p ih =>
    intro t
    by_cases hc : c = 0x2A
    · have hp : pieceOf c = ⟨.anyCharNotNL, true⟩ := by simp [pieceOf, hc]
      simp only [List.map_cons, hp, matchHere, starLoop_iff]
      constructor
      · rintro ⟨run, rest, rfl, hrun, hk⟩
        obtain ⟨mid, suf, rfl, hg⟩ := (ih rest).mp hk
        refine ⟨run ++ mid, suf, by simp, GlobMatch.star c p run mid hc ?_ hg⟩
        intro x hx
        simpa [Atom.accepts] using hrun x hx
      · rintro ⟨mid, suf, rfl, hg⟩
        cases hg with
        | char _ _ t' hne _ => exact absurd hc hne
        | star _ _ run t' _ hrun hg' =>
          refine ⟨run, t' ++ suf, by simp, ?_, (ih _).mpr ⟨t', suf, rfl, hg'⟩⟩
          intro x hx
          simpa [Atom.accepts] using hrun x hx
    · have hp : pieceOf c = ⟨.lit c, false⟩ := by simp [pieceOf, hc]
      simp only [List.map_cons, hp]
      constructor
      · intro h
        rcases t with _ | ⟨x, t'⟩
        · simp [matchHere] at h
        · simp only [matchHere, Bool.and_eq_true, Atom.accepts, decide_eq_true_eq] at h
          obtain ⟨mid, suf, rfl, hg⟩ := (ih t').mp h.2
          exact ⟨c :: mid, suf, by simp [h.1], GlobMatch.char c p mid hc hg⟩
      · rintro ⟨mid, suf, rfl, hg⟩
        cases hg with
        | char _ _ t' _ hg' =>
          simp only [List.cons_append, matchHere, Bool.and_eq_true, Atom.accepts,
            decide_eq_true_eq, true_and]
          exact (ih _).mpr ⟨t', suf, rfl, hg'⟩
        | star _ _ run t' h2 _ _ => exact absurd h2 hc

theorem matchFrom_iff (re : Regexp) (t : List Nat) :
    matchFrom re t = true ↔ ∃ pre rest, t = pre ++ rest ∧ matchHere re rest = true := by
  induction t with
  | nil =>
    simp only [matchFrom]
    constructor
    · intro h
      exact ⟨[], [], rfl, h⟩
    · rintro ⟨pre, rest, h, hm⟩
      have : rest = [] := by
        have := congrArg List.length h
        simp at this
        exact List.length_eq_zero.mp (by omega)
      rw [this] at hm
      exact hm
  | cons c cs ih =>
    simp only [matchFrom, Bool.or_eq_true, ih]
    constructor
    · rintro (h | ⟨pre, rest, h, hm⟩)
      · exact ⟨[], c :: cs, rfl, h⟩
      · exact ⟨c :: pre, rest, by simp [h], hm⟩
    · rintro ⟨pre, rest, h, hm⟩
      rcases pre with _ | ⟨x, pre⟩
      · left
        simp at h
        rw [h]
        exact hm
      · right
        simp at h
        exact ⟨pre, rest, h.2, hm⟩

theorem matchFrom_glob (p t : List Nat) :
    matchFrom (p.map pieceOf) t = true ↔ GlobFound (fun x => x ≠ 0x0A) p t := by
  rw [matchFrom_iff]
  constructor
  · rintro ⟨pre, rest, rfl, hm⟩
    obtain ⟨mid, suf, rfl, hg⟩ := (matchHere_iff p rest).mp hm
    exact ⟨pre, mid, suf, by simp, hg⟩
  · rintro ⟨pre, mid, suf, rfl, hg⟩
    exact ⟨pre, mid ++ suf, by simp, (matchHere_iff p _).mpr ⟨mid, suf, rfl, hg⟩⟩

theorem Compile_translate (p : GoString) (hv : utf8Valid p = true) :
    Compile (ReplaceAll (QuoteMeta p) (str "\\*") (str ".*")) = .ok ((runes p).map pieceOf) := by
  rw [translate_eq, Compile, decodeUnits_translate p hv, parseLoop_translate]
  · simp [runes]
  · intro u hu
    simp only [utf8Valid, List.all_eq_true] at hv
    simpa using hv u hu

theorem isEnabled_valid (n p : GoString) (hv : utf8Valid p = true) :
    isEnabled n p = .ok (matchFrom ((runes p).map pieceOf) (runes n)) := by
  simp only [isEnabled, regexpMatch, Compile_translate p hv]

/-- One rune of the pattern, translated, adds one piece to the stack of the parser. -/
theorem parseLoop_step (u : Nat × Nat) (hu : isInvalidUnit u = false) (rest : List (Nat × Nat))
    (stack : List Piece) (lr : Bool) :
    ∃ lr', parseLoop (trUnit u ++ rest) stack lr = parseLoop rest (pieceOf u.1 :: stack) lr' := by
  by_cases hstar : u.1 = 0x2A
  · have hp : pieceOf u.1 = ⟨.anyCharNotNL, true⟩ := by simp [pieceOf, hstar]
    have e1 : isInvalidUnit (0x2E, 1) = false := by decide
    have e2 : isInvalidUnit (0x2A, 1) = false := by decide
    refine ⟨true, ?_⟩
    simp only [trUnit, hstar, if_true, List.cons_append, List.nil_append, hp]
    rw [parseLoop.eq_def]
    simp only [e1, Bool.false_eq_true, if_false, Nat.reduceEqDiff, if_true]
    rw [parseLoop.eq_def]
    simp only [e2, Bool.false_eq_true, if_false, Nat.reduceEqDiff, if_true]
    simp [pieceOf]
  · by_cases hsp : special u.1 = true
    · have hlt := special_lt u.1 hsp
      have hnl : ¬ (0x80 ≤ u.1) := by omega
      have hinv := isInvalidUnit_ascii u.1 1 hlt
      have hal : isalnum u.1 = false := by
        rw [special_iff] at hsp
        simp only [isalnum, decide_eq_false_iff_not]
        omega
      have hp : pieceOf u.1 = ⟨.lit u.1, false⟩ := by simp [pieceOf, hstar]
      have e1 : isInvalidUnit (0x5C, 1) = false := by decide
      refine ⟨false, ?_⟩
      simp only [trUnit, hstar, hsp, if_true, if_false, List.cons_append, List.nil_append, hp]
      rw [parseLoop.eq_def]
      simp only [e1, Bool.false_eq_true, if_false, if_true, hinv, hnl, hal]
    · have h1 : u.1 ≠ 0x5C := fun h => hsp (by rw [h]; decide)
      have h2 : u.1 ≠ 0x2E := fun h => hsp (by rw [h]; decide)
      have h3 : u.1 ∉ [0x2B, 0x3F, 0x28, 0x29, 0x7C, 0x5B, 0x7B, 0x5E, 0x24] := by
        intro h
        apply hsp
        rw [special_iff]
        simp at h
        omega
      have hp : pieceOf u.1 = ⟨.lit u.1, false⟩ := by simp [pieceOf, hstar]
      refine ⟨false, ?_⟩
      simp only [trUnit, hstar, hsp, Bool.false_eq_true, if_false, hp, List.singleton_append]
      rw [parseLoop.eq_def]
      simp only [hu, Bool.false_eq_true, if_false, h1, h2, hstar, h3]

theorem trByte_head_ascii (b : Nat) (hb : b < 0x80) :
    ∃ a rest, trByte b = a :: rest ∧ a < 0x80 := by
  unfold trByte
  split_ifs
  · exact ⟨0x2E, _, rfl, by omega⟩
  · exact ⟨0x5C, _, rfl, by omega⟩
  · exact ⟨b, _, rfl, hb⟩

/-- A run of bytes above `0x7F` at the head of the translated pattern is a run of the
pattern itself. -/
theorem flatMap_trByte_high_prefix (c : List Nat) (hc : ∀ b ∈ c, 0x80 ≤ b) :
    ∀ (t t'' : List Nat), t.flatMap trByte = c ++ t'' → ∃ t2, t = c ++ t2 := by
  induction c with
  | nil =>
    intro t _ _
    exact ⟨t, rfl⟩
  | cons x c ih =>
    intro t t'' h
    rcases t with _ | ⟨b, tt⟩
    · simp at h
    · have hx : 0x80 ≤ x := hc x (by simp)
      by_cases hb : b < 0x80
      · obtain ⟨a, rest, ha, halt⟩ := trByte_head_ascii b hb
        rw [List.flatMap_cons, ha] at h
        simp at h
        omega
      · rw [List.flatMap_cons, trByte_high b (by omega)] at h
        simp at h
        obtain ⟨t2, ht2⟩ := ih (fun y hy => hc y (by simp [hy])) tt t'' h.2
        exact ⟨t2, by rw [h.1, ht2]; rfl⟩

theorem DecodeRune_invalid_translate (p0 : Nat) (t : List Nat) (h0 : 0x80 ≤ p0)
    (h : DecodeRune (p0 :: t) = (RuneError, 1)) :
    DecodeRune (p0 :: t.flatMap trByte) = (RuneError, 1) := by
  rcases DecodeRune_lead p0 (t.flatMap trByte) h0 with hinv | ⟨c, t'', ht, -, hc, -, hX⟩
  · exact hinv
  · obtain ⟨t2, rfl⟩ := flatMap_trByte_high_prefix c hc t t'' ht
    rw [← hX t2]
    exact h

theorem parseLoop_invalid_aux (n : Nat) : ∀ (p : GoString) (stack : List Piece) (lr : Bool),
    p.length ≤ n → utf8Valid p = false →
    parseLoop (decodeFrom 0 (p.flatMap trByte)) stack lr = .error .invalidUTF8 := by
  induction n with
  | zero =>
    intro p stack lr hp hv
    have : p = [] := List.length_eq_zero.mp (by omega)
    subst this
    simp [utf8Valid, decodeUnits, decodeFrom] at hv
  | succ n ih =>
    intro p stack lr hp hv
    rcases p with _ | ⟨p0, t⟩
    · simp [utf8Valid, decodeUnits, decodeFrom] at hv
    · by_cases h0 : p0 < 0x80
      · have hvt : utf8Valid t = false := by
          simp only [utf8Valid, decodeUnits, decodeFrom_ascii p0 t h0, List.all_cons,
            isInvalidUnit_ascii p0 1 h0] at hv ⊢
          simpa using hv
        rw [List.flatMap_cons, decodeFrom_trByte_ascii p0 h0]
        obtain ⟨lr', hstep⟩ := parseLoop_step (p0, 1) (isInvalidUnit_ascii p0 1 h0)
          (decodeFrom 0 (t.flatMap trByte)) stack lr
        rw [hstep]
        exact ih t _ _ (by simpa using hp) hvt
      · by_cases hinv : DecodeRune (p0 :: t) = (RuneError, 1)
        · have h2 := DecodeRune_invalid_translate p0 t (by omega) hinv
          rw [List.flatMap_cons, trByte_high p0 (by omega), List.singleton_append]
          simp only [decodeFrom, h2]
          rw [parseLoop.eq_def]
          simp [isInvalidUnit]
        · rcases DecodeRune_lead p0 t (by omega) with hinv' | ⟨c, t', rfl, hlen, hc, hr, hX⟩
          · exact absurd hinv' hinv
          · have hsz : (DecodeRune (p0 :: (c ++ t'))).2 - 1 = c.length := by omega
            have hd : decodeFrom 0 (p0 :: (c ++ t')) =
                DecodeRune (p0 :: (c ++ t')) :: decodeFrom 0 t' := by
              simp only [decodeFrom, hsz, decodeFrom_skip]
            have hu : isInvalidUnit (DecodeRune (p0 :: (c ++ t'))) = false := by
              cases hiu : isInvalidUnit (DecodeRune (p0 :: (c ++ t'))) with
              | false => rfl
              | true =>
                exfalso
                apply hinv
                simp only [isInvalidUnit, Bool.and_eq_true, beq_iff_eq] at hiu
                exact Prod.ext hiu.1 hiu.2
            have hvt : utf8Valid t' = false := by
              simp only [utf8Valid, decodeUnits, hd, List.all_cons, hu] at hv ⊢
              simpa using hv
            have hd2 : decodeFrom 0 (p0 :: (c ++ t'.flatMap trByte)) =
                DecodeRune (p0 :: (c ++ t')) :: decodeFrom 0 (t'.flatMap trByte) := by
              simp only [decodeFrom, hX, hsz, decodeFrom_skip]
            rw [List.flatMap_cons, trByte_high p0 (by omega), List.flatMap_append,
              flatMap_trByte_high c hc, List.singleton_append, hd2]
            obtain ⟨lr', hstep⟩ := parseLoop_step _ hu (decodeFrom 0 (t'.flatMap trByte)) stack lr
            rw [trUnit_high _ hr] at hstep
            rw [List.singleton_append] at hstep
            rw [hstep]
            exact ih t' _ _ (by simp at hp; omega) hvt

/-- A pattern that is not valid UTF-8 is rejected: `isEnabled` returns the error of
`regexp.Compile`. -/
theorem isEnabled_invalid (n p : GoString) (hv : utf8Valid p = false) :
    isEnabled n p = .error .invalidUTF8 := by
  have h : Compile (ReplaceAll (QuoteMeta p) (str "\\*") (str ".*")) = .error .invalidUTF8 := by
    rw [translate_eq, Compile, decodeUnits]
    exact parseLoop_invalid_aux p.length p [] false (le_refl _) hv
  simp only [isEnabled, regexpMatch, h]

/-- Decoding a valid string followed by any string: the runes of the first, then the
runes of the second. -/
theorem decodeFrom_append_valid (n : Nat) : ∀ (a b : GoString), a.length ≤ n →
    utf8Valid a = true → decodeFrom 0 (a ++ b) = decodeFrom 0 a ++ decodeFrom 0 b := by
  induction n with
  | zero =>
    intro a b ha _
    have : a = [] := List.length_eq_zero.mp (by omega)
    subst this
    rfl
  | succ n ih =>
    intro a b ha hv
    rcases a with _ | ⟨p0, t⟩
    · rfl
    · by_cases h0 : p0 < 0x80
      · have hvt : utf8Valid t = true := by
          simp only [utf8Valid, decodeUnits, decodeFrom_ascii p0 t h0, List.all_cons,
            Bool.and_eq_true] at hv ⊢
          exact hv.2
        rw [List.cons_append, decodeFrom_ascii p0 _ h0, decodeFrom_ascii p0 _ h0,
          ih t b (by simpa using ha) hvt]
        rfl
      · rcases DecodeRune_lead p0 t (by omega) with hinv | ⟨c, t', rfl, hlen, hc, hr, hX⟩
        · exfalso
          simp [utf8Valid, decodeUnits, decodeFrom, hinv, isInvalidUnit] at hv
        · have hsz : (DecodeRune (p0 :: (c ++ t'))).2 - 1 = c.length := by omega
          have hd : decodeFrom 0 (p0 :: (c ++ t')) =
              DecodeRune (p0 :: (c ++ t')) :: decodeFrom 0 t' := by
            simp only [decodeFrom, hsz, decodeFrom_skip]
          have hvt : utf8Valid t' = true := by
            simp only [utf8Valid, decodeUnits, hd, List.all_cons, Bool.and_eq_true] at hv ⊢
            exact hv.2
          have hd2 : decodeFrom 0 (p0 :: (c ++ (t' ++ b))) =
              DecodeRune (p0 :: (c ++ t')) :: decodeFrom 0 (t' ++ b) := by
            simp only [decodeFrom, hX, hsz, decodeFrom_skip]
          rw [List.cons_append, List.append_assoc, hd2, hd, ih t' b (by simp at ha; omega) hvt]
          rfl

theorem runes_append_valid (a b : GoString) (ha : utf8Valid a = true) :
    runes (a ++ b) = runes a ++ runes b := by
  simp only [runes, decodeUnits, decodeFrom_append_valid a.length a b (le_refl _) ha,
    List.map_append]
theorem acceptHi_ED (p0 : Nat) (h : 0xE0 ≤ p0) (h2 : p0 ≤ 0xEF) :
    acceptHi p0 ≤ 0x9F ∨ p0 % 16 ≠ 13 := by
  unfold acceptHi
  split_ifs <;> omega

theorem acceptHi_F4 (p0 : Nat) (h : 0xF0 ≤ p0) (h2 : p0 ≤ 0xF4) :
    acceptHi p0 ≤ 0x8F ∨ p0 % 8 < 4 := by
  unfold acceptHi
  split_ifs <;> omega

/-- A lead byte that decodes: the continuation bytes lie in `0x80 .. 0xBF`, and encoding
the rune gives the bytes back. -/
theorem DecodeRune_lead_encode (p0 : Nat) (t : List Nat) (h0 : 0x80 ≤ p0) :
    DecodeRune (p0 :: t) = (RuneError, 1) ∨
    ∃ c t', t = c ++ t' ∧ c.length + 1 = (DecodeRune (p0 :: t)).2 ∧
      (∀ b ∈ c, 0x80 ≤ b ∧ b ≤ 0xBF) ∧ 0xC2 ≤ p0 ∧
      EncodeRune (DecodeRune (p0 :: t)).1 = p0 :: c ∧
      ∀ X, DecodeRune (p0 :: (c ++ X)) = DecodeRune (p0 :: t) := by
  have hlt : ¬ p0 < 0x80 := by omega
  have hacc := accept_range p0
  rcases firstSize_cases p0 h0 with hs | ⟨hs, h1, h2⟩ | ⟨hs, h1, h2⟩ | ⟨hs, h1, h2⟩
  · left
    simp [DecodeRune, hlt, hs]
  · rcases t with _ | ⟨b1, t1⟩
    · left
      simp [DecodeRune, hlt, hs]
    · by_cases hr : b1 < acceptLo p0 ∨ acceptHi p0 < b1
      · left
        simp [DecodeRune, hlt, hs, hr]
      · right
        refine ⟨[b1], t1, rfl, ?_⟩
        have e1 : ¬ (p0 % 32 * 64 + b1 % 64 < 128) := by omega
        have e2 : p0 % 32 * 64 + b1 % 64 < 2048 := by omega
        simp [DecodeRune, hlt, hs, hr, len2, EncodeRune, e1, e2]
        omega
  · rcases t with _ | ⟨b1, _ | ⟨b2, t2⟩⟩
    · left
      simp [DecodeRune, hlt, hs]
    · left
      simp [DecodeRune, hlt, hs]
    · by_cases hr : b1 < acceptLo p0 ∨ acceptHi p0 < b1
      · left
        simp [DecodeRune, hlt, hs, hr]
      · by_cases hr2 : b2 < 0x80 ∨ 0xBF < b2
        · left
          simp [DecodeRune, hlt, hs, hr, hr2]
        · right
          refine ⟨[b1, b2], t2, rfl, ?_⟩
          have hlo := acceptLo_E0 p0 h1 h2
          have hhi := acceptHi_ED p0 h1 h2
          have e1 : ¬ (p0 % 16 * 4096 + b1 % 64 * 64 + b2 % 64 < 128) := by omega
          have e2 : ¬ (p0 % 16 * 4096 + b1 % 64 * 64 + b2 % 64 < 2048) := by omega
          have e3 : ¬ ((55296 ≤ p0 % 16 * 4096 + b1 % 64 * 64 + b2 % 64 ∧
              p0 % 16 * 4096 + b1 % 64 * 64 + b2 % 64 ≤ 57343) ∨
              1114111 < p0 % 16 * 4096 + b1 % 64 * 64 + b2 % 64) := by omega
          have e4 : p0 % 16 * 4096 + b1 % 64 * 64 + b2 % 64 < 65536 := by omega
          simp [DecodeRune, hlt, hs, hr, hr2, len3, EncodeRune, e1, e2, e3, e4]
          omega
  · rcases t with _ | ⟨b1, _ | ⟨b2, _ | ⟨b3, t3⟩⟩⟩
    · left
      simp [DecodeRune, hlt, hs]
    · left
      simp [DecodeRune, hlt, hs]
    · left
      simp [DecodeRune, hlt, hs]
    · by_cases hr : b1 < acceptLo p0 ∨ acceptHi p0 < b1
      · left
        simp [DecodeRune, hlt, hs, hr]
      · by_cases hr2 : b2 < 0x80 ∨ 0xBF < b2
        · left
          simp [DecodeRune, hlt, hs, hr, hr2]
        · by_cases hr3 : b3 < 0x80 ∨ 0xBF < b3
          · left
            simp [DecodeRune, hlt, hs, hr, hr2, hr3]
          · right
            refine ⟨[b1, b2, b3], t3, rfl, ?_⟩
            have hlo := acceptLo_F0 p0 h1 h2
            have hhi := acceptHi_F4 p0 h1 h2
            have e1 : ¬ (p0 % 8 * 262144 + b1 % 64 * 4096 + b2 % 64 * 64 + b3 % 64 < 128) := by
              omega
            have e2 : ¬ (p0 % 8 * 262144 + b1 % 64 * 4096 + b2 % 64 * 64 + b3 % 64 < 2048) := by
              omega
            have e3 : ¬ ((55296 ≤ p0 % 8 * 262144 + b1 % 64 * 4096 + b2 % 64 * 64 + b3 % 64 ∧
                p0 % 8 * 262144 + b1 % 64 * 4096 + b2 % 64 * 64 + b3 % 64 ≤ 57343) ∨
                1114111 < p0 % 8 * 262144 + b1 % 64 * 4096 + b2 % 64 * 64 + b3 % 64) := by omega
            have e4 : ¬ (p0 % 8 * 262144 + b1 % 64 * 4096 + b2 % 64 * 64 + b3 % 64 < 65536) := by
              omega
            simp [DecodeRune, hlt, hs, hr, hr2, hr3, len4, EncodeRune, e1, e2, e3, e4]
            omega
theorem encode_runes_aux (n : Nat) : ∀ s : GoString, s.length ≤ n → utf8Valid s = true →
    ((decodeFrom 0 s).map Prod.fst).flatMap EncodeRune = s := by
  induction n with
  | zero =>
    intro s hs _
    have : s = [] := List.length_eq_zero.mp (by omega)
    subst this
    rfl
  | succ n ih =>
    intro s hs hv
    rcases s with _ | ⟨p0, t⟩
    · rfl
    · by_cases h0 : p0 < 0x80
      · have hvt : utf8Valid t = true := by
          simp only [utf8Valid, decodeUnits, decodeFrom_ascii p0 t h0, List.all_cons,
            Bool.and_eq_true] at hv ⊢
          exact hv.2
        rw [decodeFrom_ascii p0 t h0, List.map_cons, List.flatMap_cons,
          ih t (by simpa using hs) hvt]
        simp [EncodeRune, h0]
      · rcases DecodeRune_lead_encode p0 t (by omega) with
          hinv | ⟨c, t', rfl, hlen, hc, -, henc, hX⟩
        · exfalso
          simp [utf8Valid, decodeUnits, decodeFrom, hinv, isInvalidUnit] at hv
        · have hsz : (DecodeRune (p0 :: (c ++ t'))).2 - 1 = c.length := by omega
          have hd : decodeFrom 0 (p0 :: (c ++ t')) =
              DecodeRune (p0 :: (c ++ t')) :: decodeFrom 0 t' := by
            simp only [decodeFrom, hsz, decodeFrom_skip]
          have hvt : utf8Valid t' = true := by
            simp only [utf8Valid, decodeUnits, hd, List.all_cons, Bool.and_eq_true] at hv ⊢
            exact hv.2
          rw [hd, List.map_cons, List.flatMap_cons, henc, ih t' (by simp at hs; omega) hvt]
          simp

/-- Encoding the runes of a valid string gives the string back. -/
theorem encode_runes (s : GoString) (hv : utf8Valid s = true) :
    (runes s).flatMap EncodeRune = s :=
  encode_runes_aux s.length s (le_refl _) hv

/-- A valid string cut before a byte that cannot continue a rune: the part before the
cut is valid. -/
theorem utf8Valid_left_aux (n : Nat) : ∀ (a : GoString) (b : Nat) (rest : GoString),
    a.length ≤ n → (b < 0x80 ∨ 0xBF < b) → utf8Valid (a ++ b :: rest) = true →
    utf8Valid a = true := by
  induction n with
  | zero =>
    intro a b rest ha _ _
    have : a = [] := List.length_eq_zero.mp (by omega)
    subst this
    rfl
  | succ n ih =>
    intro a b rest ha hb hv
    rcases a with _ | ⟨p0, t⟩
    · rfl
    · by_cases h0 : p0 < 0x80
      · have hvt : utf8Valid (t ++ b :: rest) = true := by
          simp only [List.cons_append, utf8Valid, decodeUnits, decodeFrom_ascii p0 _ h0,
            List.all_cons, Bool.and_eq_true] at hv ⊢
          exact hv.2
        have := ih t b rest (by simpa using ha) hb hvt
        simp only [utf8Valid, decodeUnits, decodeFrom_ascii p0 _ h0, List.all_cons,
          Bool.and_eq_true, isInvalidUnit_ascii p0 1 h0] at this ⊢
        exact ⟨rfl, this⟩
      · rcases DecodeRune_lead_encode p0 (t ++ b :: rest) (by omega) with
          hinv | ⟨c, t', hsplit, hlen, hc, -, -, hX⟩
        · exfalso
          simp [utf8Valid, decodeUnits, decodeFrom, hinv, isInvalidUnit] at hv
        · have hcase : ∃ t2, t = c ++ t2 ∧ t' = t2 ++ b :: rest := by
            rcases List.append_eq_append_iff.mp hsplit with ⟨a', h1, h2⟩ | ⟨c', h1, h2⟩
            · rcases a' with _ | ⟨x, a'⟩
              · exact ⟨[], by simpa using h1.symm, by simpa using h2.symm⟩
              · exfalso
                simp at h2
                have := hc b (by rw [h1]; simp [h2.1])
                omega
            · exact ⟨c', h1, h2⟩
          obtain ⟨t2, rfl, rfl⟩ := hcase
          simp only [List.cons_append, List.append_assoc] at hlen hX hv
          have hu : isInvalidUnit (DecodeRune (p0 :: (c ++ (t2 ++ b :: rest)))) = false := by
            simp only [utf8Valid, decodeUnits, decodeFrom, List.all_cons, Bool.and_eq_true] at hv
            simpa using hv.1
          have e1 : DecodeRune (p0 :: (c ++ t2)) = DecodeRune (p0 :: (c ++ (t2 ++ b :: rest))) :=
            hX t2
          have hsz : (DecodeRune (p0 :: (c ++ (t2 ++ b :: rest)))).2 - 1 = c.length := by omega
          have hd : decodeFrom 0 (p0 :: (c ++ (t2 ++ b :: rest))) =
              DecodeRune (p0 :: (c ++ (t2 ++ b :: rest))) :: decodeFrom 0 (t2 ++ b :: rest) := by
            simp only [decodeFrom, hsz, decodeFrom_skip]
          have hvt : utf8Valid (t2 ++ b :: rest) = true := by
            simp only [utf8Valid, decodeUnits, hd, List.all_cons, Bool.and_eq_true] at hv ⊢
            exact hv.2
          have hv2 := ih t2 b rest (by simp at ha; omega) hb hvt
          have hd' : decodeFrom 0 (p0 :: (c ++ t2)) =
              DecodeRune (p0 :: (c ++ (t2 ++ b :: rest))) :: decodeFrom 0 t2 := by
            simp only [decodeFrom, e1, hsz, decodeFrom_skip]
          simp only [utf8Valid, decodeUnits, hd', List.all_cons, Bool.and_eq_true, hu] at hv2 ⊢
          exact ⟨rfl, hv2⟩

/-- The first byte of a non-empty valid string cannot continue a rune. -/
theorem utf8Valid_head (b : Nat) (rest : GoString) (hv : utf8Valid (b :: rest) = true) :
    b < 0x80 ∨ 0xBF < b := by
  by_cases h0 : b < 0x80
  · exact Or.inl h0
  · rcases DecodeRune_lead_encode b rest (by omega) with hinv | ⟨c, t', -, -, -, hlead, -, -⟩
    · exfalso
      simp [utf8Valid, decodeUnits, decodeFrom, hinv, isInvalidUnit] at hv
    · right
      omega

theorem utf8Valid_right (a b : GoString) (ha : utf8Valid a = true)
    (hab : utf8Valid (a ++ b) = true) : utf8Valid b = true := by
  simp only [utf8Valid, decodeUnits, decodeFrom_append_valid a.length a b (le_refl _) ha,
    List.all_append, Bool.and_eq_true] at hab ⊢
  exact hab.2

/-- For valid strings, occurring as a run of bytes and occurring as a run of runes are
the same. -/
theorem infix_runes_iff (p n : GoString) (hp : utf8Valid p = true) (hn : utf8Valid n = true) :
    runes p <:+: runes n ↔ p <:+: n := by
  constructor
  · rintro ⟨pre, suf, h⟩
    refine ⟨pre.flatMap EncodeRune, suf.flatMap EncodeRune, ?_⟩
    rw [← encode_runes n hn, ← h, List.flatMap_append, List.flatMap_append, encode_runes p hp]
  · rintro ⟨x, y, h⟩
    rcases p with _ | ⟨b, rest⟩
    · exact ⟨[], runes n, by simp [runes, decodeUnits, decodeFrom]⟩
    · have hb := utf8Valid_head b rest hp
      have hn' : utf8Valid (x ++ b :: (rest ++ y)) = true := by
        rw [← hn, ← h]
        simp
      have hx : utf8Valid x = true :=
        utf8Valid_left_aux x.length x b (rest ++ y) (le_refl _) hb hn'
      refine ⟨runes x, runes y, ?_⟩
      have e : runes n = runes x ++ runes (b :: rest) ++ runes y := by
        rw [← h, List.append_assoc x (b :: rest) y, runes_append_valid x _ hx,
          runes_append_valid _ y hp, List.append_assoc]
      exact e.symm

theorem GlobMatch_literal (wild : Nat → Prop) (p : List Nat) (hp : 0x2A ∉ p) (t : List Nat) :
    GlobMatch wild p t ↔ t = p := by
  induction p generalizing t with
  | nil =>
    constructor
    · intro h
      cases h
      rfl
    · rintro rfl
      exact GlobMatch.done
  | cons c p ih =>
    have hc : c ≠ 0x2A := fun h => hp (by simp [h])
    have hp' : 0x2A ∉ p := fun h => hp (by simp [h])
    constructor
    · intro h
      cases h with
      | char _ _ t' _ hg => rw [(ih hp' t').mp hg]
      | star _ _ run t' h2 _ _ => exact absurd h2 hc
    · rintro rfl
      exact GlobMatch.char c p p hc ((ih hp' p).mpr rfl)

theorem DecodeRune_ne_star (b : Nat) (t : List Nat) (hb : b ≠ 0x2A) :
    (DecodeRune (b :: t)).1 ≠ 0x2A := by
  by_cases h0 : b < 0x80
  · simpa [DecodeRune, h0] using hb
  · rcases DecodeRune_lead b t (by omega) with h | ⟨c, t', -, -, -, hr, -⟩
    · rw [h]
      decide
    · omega

theorem decodeFrom_no_star (k : Nat) (s : GoString) (hs : 0x2A ∉ s) :
    ∀ u ∈ decodeFrom k s, u.1 ≠ 0x2A := by
  induction s generalizing k with
  | nil => simp [decodeFrom]
  | cons b t ih =>
    have hb : b ≠ 0x2A := fun h => hs (by simp [h])
    have ht : 0x2A ∉ t := fun h => hs (by simp [h])
    cases k with
    | zero =>
      intro u hu
      simp only [decodeFrom, List.mem_cons] at hu
      rcases hu with rfl | hu
      · exact DecodeRune_ne_star b t hb
      · exact ih _ ht u hu
    | succ k =>
      intro u hu
      simp only [decodeFrom] at hu
      exact ih _ ht u hu

theorem runes_no_star (s : GoString) (hs : 0x2A ∉ s) : 0x2A ∉ runes s := by
  intro h
  simp only [runes, decodeUnits, List.mem_map] at h
  obtain ⟨u, hu, h1⟩ := h
  exact decodeFrom_no_star 0 s hs u hu h1

theorem matchFrom_any_star (t : List Nat) : matchFrom [⟨.anyCharNotNL, true⟩] t = true := by
  cases t <;> simp [matchFrom, matchHere, starLoop]

/-- C1 (as amended). For every namespace `n` and every pattern `p` that is valid UTF-8,
`isEnabled n p` returns without error, and it returns `true` exactly when some contiguous
part of the runes of `n` matches `p` read as a glob in which each `*` stands for any run
(the empty one included) of runes other than line feed and every other rune stands for
itself; the runes of `n` are read as `regexp` reads them, an invalid byte as `U+FFFD`. -/
theorem isEnabled_glob (n p : GoString) (hv : utf8Valid p = true) :
    (∃ b, isEnabled n p = .ok b) ∧
    (isEnabled n p = .ok true ↔ GlobFound (fun x => x ≠ 0x0A) (runes p) (runes n)) := by
  rw [isEnabled_valid n p hv]
  refine ⟨⟨_, rfl⟩, ?_⟩
  rw [← matchFrom_glob]
  simp

theorem isEnabled_glob_witness :
    utf8Valid (str "test:*") = true ∧
    ((∃ b, isEnabled (str "test:subnamespace") (str "test:*") = .ok b) ∧
      (isEnabled (str "test:subnamespace") (str "test:*") = .ok true ↔
        GlobFound (fun x => x ≠ 0x0A) (runes (str "test:*")) (runes (str "test:subnamespace")))) :=
  ⟨by decide, isEnabled_glob _ _ (by decide)⟩

/-- C1 (as stated) fails. With `*` read as any run of any characters, line break
included, the namespace `"a\nb"` contains a match of the glob `a*b`, yet `isEnabled`
returns `false`; and the namespace and pattern made of the single byte `0xFF` match
each other as globs, yet `isEnabled` returns an error and not `true`. -/
theorem isEnabled_glob_counterexample :
    (isEnabled (str "a\nb") (str "a*b") = .ok false ∧
      GlobFound (fun _ => True) (runes (str "a*b")) (runes (str "a\nb"))) ∧
    (isEnabled [0xFF] [0xFF] = .error .invalidUTF8 ∧
      GlobFound (fun _ => True) (runes [0xFF]) (runes [0xFF])) := by
  refine ⟨⟨by decide, [], [0x61, 0x0A, 0x62], [], by decide, ?_⟩,
    ⟨by decide, [], [0xFFFD], [], by decide, ?_⟩⟩
  · have h : runes (str "a*b") = [0x61, 0x2A, 0x62] := by decide
    rw [h]
    exact GlobMatch.char _ _ _ (by decide)
      (GlobMatch.star 0x2A [0x62] [0x0A] [0x62] rfl (fun _ _ => trivial)
        (GlobMatch.char _ _ _ (by decide) GlobMatch.done))
  · have h : runes [0xFF] = [0xFFFD] := by decide
    rw [h]
    exact GlobMatch.char _ _ _ (by decide) GlobMatch.done

/-- C2. For every non-empty namespace `n`, `isEnabled n "*"` returns `true` and no
error. -/
theorem isEnabled_star (n : GoString) (_hn : n ≠ []) : isEnabled n (str "*") = .ok true := by
  have hv : utf8Valid (str "*") = true := by decide
  have hr : (runes (str "*")).map pieceOf = [⟨.anyCharNotNL, true⟩] := by decide
  rw [isEnabled_valid n _ hv, hr, matchFrom_any_star]

theorem isEnabled_star_witness : str "test" ≠ [] ∧ isEnabled (str "test") (str "*") = .ok true :=
  ⟨by decide, isEnabled_star (str "test") (by decide)⟩

theorem matchFrom_glob_literal (p n : GoString) (hp : 0x2A ∉ p) :
    matchFrom ((runes p).map pieceOf) (runes n) = true ↔ runes p <:+: runes n := by
  rw [matchFrom_glob]
  constructor
  · rintro ⟨pre, mid, suf, h, hg⟩
    rw [GlobMatch_literal _ _ (runes_no_star p hp)] at hg
    subst hg
    exact ⟨pre, suf, h.symm⟩
  · rintro ⟨pre, suf, h⟩
    exact ⟨pre, runes p, suf, h.symm, (GlobMatch_literal _ _ (runes_no_star p hp) _).mpr rfl⟩

/-- C3 (as amended). For every namespace `n` and every pattern `p` that is valid UTF-8
and contains no `*`, `isEnabled n p` returns without error, and it returns `true`
exactly when the runes of `p` occur as a contiguous run among the runes of `n` (read as
`regexp` reads them, an invalid byte as `U+FFFD`): every rune of `p`, the bytes
`\.+?()|[]{}^$` included, stands for itself. When `n` is valid UTF-8 too, that is
exactly when `p` occurs as a contiguous substring of `n`. The empty pattern admits every
namespace. -/
theorem isEnabled_literal (n p : GoString) (hv : utf8Valid p = true) (hp : 0x2A ∉ p) :
    (∃ b, isEnabled n p = .ok b) ∧
    (isEnabled n p = .ok true ↔ runes p <:+: runes n) ∧
    (utf8Valid n = true → (isEnabled n p = .ok true ↔ p <:+: n)) ∧
    isEnabled n [] = .ok true := by
  have hrunes : isEnabled n p = .ok true ↔ runes p <:+: runes n := by
    rw [isEnabled_valid n p hv, ← matchFrom_glob_literal p n hp]
    simp
  refine ⟨⟨_, isEnabled_valid n p hv⟩, hrunes, ?_, ?_⟩
  · intro hn
    rw [hrunes, infix_runes_iff p n hv hn]
  · have h0 : utf8Valid [] = true := by decide
    rw [isEnabled_valid n [] h0]
    cases hr : runes n <;> simp [runes, decodeUnits, decodeFrom, matchFrom, matchHere]

theorem isEnabled_literal_witness :
    utf8Valid (str "a.b+(c)[d]\\") = true ∧ 0x2A ∉ str "a.b+(c)[d]\\" ∧
    ((∃ b, isEnabled (str "xa.b+(c)[d]\\y") (str "a.b+(c)[d]\\") = .ok b) ∧
      (isEnabled (str "xa.b+(c)[d]\\y") (str "a.b+(c)[d]\\") = .ok true ↔
        runes (str "a.b+(c)[d]\\") <:+: runes (str "xa.b+(c)[d]\\y")) ∧
      (utf8Valid (str "xa.b+(c)[d]\\y") = true →
        (isEnabled (str "xa.b+(c)[d]\\y") (str "a.b+(c)[d]\\") = .ok true ↔
          str "a.b+(c)[d]\\" <:+: str "xa.b+(c)[d]\\y")) ∧
      isEnabled (str "xa.b+(c)[d]\\y") [] = .ok true) :=
  ⟨by decide, by decide, isEnabled_literal _ _ (by decide) (by decide)⟩

/-- C3 (as stated) fails. The pattern made of the single byte `0xFF` contains no `*` and
occurs as a contiguous substring of the namespace `0xFF`, yet `isEnabled` returns an
error and not `true`. -/
theorem isEnabled_literal_counterexample :
    (0x2A ∉ ([0xFF] : GoString)) ∧ ([0xFF] : GoString) <:+: [0xFF] ∧
    isEnabled [0xFF] [0xFF] ≠ .ok true := by
  refine ⟨by decide, List.infix_refl _, by decide⟩

/-! ## The logger -/

/-- The scenario of `TestLoggerWithWriter`, first half, with a clock that does not
advance during the emission. -/
theorem TestLoggerWithWriter_scenario :
    ∃ l, New plainLib (str "*") [WithWriter (some buffer)] (testWorld 0) = (.ok l, testWorld 0) ∧
      (l.Debug (str "Hello") ⟨testWorld 0, []⟩).2.world.writes =
        [(buffer, str "* [DEBUG] Hello 0ms")] := by
  refine ⟨_, rfl, ?_⟩
  decide

theorem log_rejected (l : Logger) (ll : Int) (message : GoString) (r : Run)
    (h : l.enabled = false ∨ ll < l.logLevel) : l.log ll message r = (l, r) := by
  unfold Logger.log
  rcases h with h | h
  · simp [h]
  · have : ¬ l.logLevel ≤ ll := by omega
    simp [this]

/-- C4. If the logger is not enabled, or the level of the message is strictly below the
threshold of the logger, then `log` returns the logger and the run as they were: no
request is handed to the formatter, no `Write` call is made, the clock is not read, and
`lastCall` and every other field of the logger keep their values. The same holds for
`Debug`, `Info`, `Warn` and `Error`, each at its own level. -/
theorem log_gate_closed (l : Logger) (ll : Int) (message : GoString) (r : Run)
    (h : l.enabled = false ∨ ll < l.logLevel) :
    l.log ll message r = (l, r) ∧
    (ll = LogLevelDebug → l.Debug message r = (l, r)) ∧
    (ll = LogLevelInfo → l.Info message r = (l, r)) ∧
    (ll = LogLevelWarn → l.Warn message r = (l, r)) ∧
    (ll = LogLevelError → l.Error message r = (l, r)) := by
  refine ⟨log_rejected l ll message r h, ?_, ?_, ?_, ?_⟩
  · rintro rfl
    exact log_rejected l _ message r h
  · rintro rfl
    exact log_rejected l _ message r h
  · rintro rfl
    exact log_rejected l _ message r h
  · rintro rfl
    exact log_rejected l _ message r h

theorem log_gate_closed_witness :
    (warnLogger.enabled = false ∨ LogLevelInfo < warnLogger.logLevel) ∧
    (warnLogger.log LogLevelInfo (str "m") ⟨testWorld 5, []⟩ = (warnLogger, ⟨testWorld 5, []⟩) ∧
      (LogLevelInfo = LogLevelDebug →
        warnLogger.Debug (str "m") ⟨testWorld 5, []⟩ = (warnLogger, ⟨testWorld 5, []⟩)) ∧
      (LogLevelInfo = LogLevelInfo →
        warnLogger.Info (str "m") ⟨testWorld 5, []⟩ = (warnLogger, ⟨testWorld 5, []⟩)) ∧
      (LogLevelInfo = LogLevelWarn →
        warnLogger.Warn (str "m") ⟨testWorld 5, []⟩ = (warnLogger, ⟨testWorld 5, []⟩)) ∧
      (LogLevelInfo = LogLevelError →
        warnLogger.Error (str "m") ⟨testWorld 5, []⟩ = (warnLogger, ⟨testWorld 5, []⟩))) :=
  ⟨by decide, log_gate_closed _ _ _ _ (by decide)⟩

/-- An admitted call of `log`: the request it builds, the world it leaves (the clock
readings before dispatch, the formatter applied to the request, one more reading), and
`lastCall` set afterwards. -/
theorem log_admitted_world (l : Logger) (ll : Int) (message : GoString) (r : Run)
    (he : l.enabled = true) (hl : l.logLevel ≤ ll) :
    ∃ req : LogRequest, (l.log ll message r).2.calls = r.calls ++ [req] ∧
      (l.log ll message r).2.world =
        dispatch l.loggerImpl (if IsZero l.lastCall then 2 else 1) req r.world ∧
      IsZero (l.log ll message r).1.lastCall = false ∧
      req.Level = ll ∧ req.Message = message ∧ req.Namespace = l.namespace_ ∧
      req.Writer = l.writer ∧ req.AddColor = l.addColor := by
  cases hlc : l.lastCall with
  | none =>
    refine ⟨{ Level := ll, Namespace := l.namespace_, Message := message, Writer := l.writer,
              Delay := r.world.clock (r.world.tick + 1) - r.world.clock r.world.tick,
              AddColor := l.addColor }, ?_, ?_, ?_, rfl, rfl, rfl, rfl, rfl⟩ <;>
      simp only [Logger.log, he, hl, decide_True, Bool.and_self, if_true, hlc, IsZero,
        Option.isNone_none, Option.isNone_some, Now, Since, dispatch]
  | some t =>
    refine ⟨{ Level := ll, Namespace := l.namespace_, Message := message, Writer := l.writer,
              Delay := r.world.clock r.world.tick - t, AddColor := l.addColor },
            ?_, ?_, ?_, rfl, rfl, rfl, rfl, rfl⟩ <;>
      simp only [Logger.log, he, hl, decide_True, Bool.and_self, if_true, hlc, IsZero,
        Option.isNone_some, Bool.false_eq_true, if_false, Now, Since, dispatch]

/-- A call of `log` changes no field of the logger but `lastCall`. -/
theorem log_fields (l : Logger) (ll : Int) (message : GoString) (r : Run) :
    (l.log ll message r).1.namespace_ = l.namespace_ ∧
    (l.log ll message r).1.enabled = l.enabled ∧
    (l.log ll message r).1.writer = l.writer ∧
    (l.log ll message r).1.loggerImpl = l.loggerImpl ∧
    (l.log ll message r).1.logLevel = l.logLevel ∧
    (l.log ll message r).1.addColor = l.addColor := by
  unfold Logger.log
  split_ifs <;> simp

/-- A sequence of calls of `log` on an enabled logger: the requests built, in order, one
for each emission at or above the threshold, and the world left, in which the formatter
has acted on exactly these requests in that order. -/
theorem logAll_dispatch (es : List (Int × GoString)) : ∀ (l : Logger) (r : Run),
    l.enabled = true →
    ∃ new : List LogRequest, (l.logAll es r).2.calls = r.calls ++ new ∧
      List.Forall₂
        (fun (req : LogRequest) (e : Int × GoString) =>
          req.Level = e.1 ∧ req.Message = e.2 ∧ req.Namespace = l.namespace_ ∧
            req.Writer = l.writer ∧ req.AddColor = l.addColor)
        new (es.filter fun e => decide (l.logLevel ≤ e.1)) ∧
      (l.logAll es r).2.world = dispatchAll l.loggerImpl (IsZero l.lastCall) new r.world := by
  induction es with
  | nil =>
    intro l r _
    exact ⟨[], by simp [Logger.logAll], by simp, by simp [Logger.logAll, dispatchAll]⟩
  | cons e es ih =>
    intro l r he
    obtain ⟨hn, hen, hw, hi, hlv, hc⟩ := log_fields l e.1 e.2 r
    obtain ⟨new, hnew, hall, hworld⟩ :=
      ih (l.log e.1 e.2 r).1 (l.log e.1 e.2 r).2 (by rw [hen, he])
    rw [hn, hw, hlv, hc] at hall
    rw [hi] at hworld
    by_cases hl : l.logLevel ≤ e.1
    · obtain ⟨req, hreq, hwd, hz, hfields⟩ := log_admitted_world l e.1 e.2 r he hl
      refine ⟨req :: new, ?_, ?_, ?_⟩
      · simp only [Logger.logAll, hnew, hreq, List.append_assoc, List.singleton_append]
      · simp only [List.filter_cons, hl, decide_True, if_true]
        exact List.Forall₂.cons hfields hall
      · simp only [Logger.logAll, hworld, hz, hwd, dispatchAll]
    · have hrej := log_rejected l e.1 e.2 r (Or.inr (by omega))
      rw [hrej] at hnew hworld
      refine ⟨new, ?_, ?_, ?_⟩
      · simp only [Logger.logAll, hrej, hnew]
      · simp only [List.filter_cons, hl, decide_False]
        exact hall
      · simp only [Logger.logAll, hrej, hworld]

/-- C5. On an enabled logger with threshold `l.logLevel`, a finite sequence `es` of
emissions `(level, message)` invokes the formatter exactly once for each emission whose
level is at least the threshold and never for the others, in the order of the calls:
the requests `new` correspond one to one, in order, to the emissions at or above the
threshold, each carrying the level and message of its emission and the namespace, writer
and colorize function of the logger, and the world after the sequence is the world
before it on which `l.loggerImpl.Log` has acted on the requests of `new` one after the
other, with nothing but clock readings in between. With threshold `WARN`, the sequence
debug, info, warn `"x"`, error `"y"` hands over exactly two requests, `WARN` `"x"` then
`ERROR` `"y"`, the world after it is the one left by the formatter acting on the first
and then on the second, and with the text formatter exactly two records are written, on
the writer of the logger: `namespace [WARN] x <delay>ms`, then
`namespace [ERROR] y <delay>ms`. -/
theorem logAll_requests (l : Logger) (es : List (Int × GoString)) (r : Run)
    (he : l.enabled = true) :
    (∃ new : List LogRequest, (l.logAll es r).2.calls = r.calls ++ new ∧
      List.Forall₂
        (fun (req : LogRequest) (e : Int × GoString) =>
          req.Level = e.1 ∧ req.Message = e.2 ∧ req.Namespace = l.namespace_ ∧
            req.Writer = l.writer ∧ req.AddColor = l.addColor)
        new (es.filter fun e => decide (l.logLevel ≤ e.1)) ∧
      (l.logAll es r).2.world =
        dispatchAll l.loggerImpl (IsZero l.lastCall) new r.world) ∧
    (l.logLevel = LogLevelWarn → ∀ m1 m2 : GoString,
      ∃ q1 q2 : LogRequest,
        (((((l.Debug m1 r).1.Info m2 (l.Debug m1 r).2).1.Warn (str "x")
            ((l.Debug m1 r).1.Info m2 (l.Debug m1 r).2).2).1.Error (str "y")
            (((l.Debug m1 r).1.Info m2 (l.Debug m1 r).2).1.Warn (str "x")
              ((l.Debug m1 r).1.Info m2 (l.Debug m1 r).2).2).2).2.calls = r.calls ++ [q1, q2]) ∧
        q1.Level = LogLevelWarn ∧ q1.Message = str "x" ∧
        q2.Level = LogLevelError ∧ q2.Message = str "y" ∧
        (((((l.Debug m1 r).1.Info m2 (l.Debug m1 r).2).1.Warn (str "x")
            ((l.Debug m1 r).1.Info m2 (l.Debug m1 r).2).2).1.Error (str "y")
            (((l.Debug m1 r).1.Info m2 (l.Debug m1 r).2).1.Warn (str "x")
              ((l.Debug m1 r).1.Info m2 (l.Debug m1 r).2).2).2).2.world =
          dispatch l.loggerImpl 1 q2
            (dispatch l.loggerImpl (if IsZero l.lastCall then 2 else 1) q1 r.world)) ∧
        (l.loggerImpl = TextLogger →
          (((((l.Debug m1 r).1.Info m2 (l.Debug m1 r).2).1.Warn (str "x")
              ((l.Debug m1 r).1.Info m2 (l.Debug m1 r).2).2).1.Error (str "y")
              (((l.Debug m1 r).1.Info m2 (l.Debug m1 r).2).1.Warn (str "x")
                ((l.Debug m1 r).1.Info m2 (l.Debug m1 r).2).2).2).2.world.writes =
            r.world.writes ++
              [(l.writer, l.addColor [.string l.namespace_] ++ str " [" ++ str "WARN" ++
                  str "] " ++ str "x" ++ str " " ++
                  l.addColor [.int64 (Milliseconds q1.Delay), .string (str "ms")]),
               (l.writer, l.addColor [.string l.namespace_] ++ str " [" ++ str "ERROR" ++
                  str "] " ++ str "y" ++ str " " ++
                  l.addColor [.int64 (Milliseconds q2.Delay), .string (str "ms")])]))) := by
  refine ⟨logAll_dispatch es l r he, ?_⟩
  intro hw m1 m2
  obtain ⟨new, hnew, hall, hworld⟩ := logAll_dispatch
    [(LogLevelDebug, m1), (LogLevelInfo, m2), (LogLevelWarn, str "x"),
      (LogLevelError, str "y")] l r he
  have hf : ([(LogLevelDebug, m1), (LogLevelInfo, m2), (LogLevelWarn, str "x"),
      (LogLevelError, str "y")].filter fun e => decide (l.logLevel ≤ e.1)) =
      [(LogLevelWarn, str "x"), (LogLevelError, str "y")] := by
    rw [hw]; rfl
  rw [hf] at hall
  cases hall with
  | cons h1 hrest =>
    cases hrest with
    | cons h2 hnil =>
      cases hnil
      rename_i q1 q2
      obtain ⟨hl1, hm1, hn1, hw1, hc1⟩ := h1
      obtain ⟨hl2, hm2, hn2, hw2, hc2⟩ := h2
      simp only [Logger.logAll] at hnew hworld
      simp only [Logger.Debug, Logger.Info, Logger.Warn, Logger.Error]
      refine ⟨q1, q2, hnew, hl1, hm1, hl2, hm2, ?_, ?_⟩
      · rw [hworld]
        simp only [dispatchAll, Bool.false_eq_true, if_false]
      · intro himpl
        have hs1 : (LogLevel.String LogLevelWarn).1 = str "WARN" := by decide
        have hs2 : (LogLevel.String LogLevelError).1 = str "ERROR" := by decide
        rw [hworld, himpl]
        simp only [dispatchAll, dispatch, Now, TextLogger, TextLogger.Log, Fprint, hl1, hm1,
          hn1, hw1, hc1, hl2, hm2, hn2, hw2, hc2, hs1, hs2, List.append_assoc,
          List.singleton_append]

theorem logAll_requests_witness :
    warnLogger.enabled = true ∧
    ((∃ new : List LogRequest,
        (warnLogger.logAll [(LogLevelDebug, str "a"), (LogLevelError, str "b")]
          ⟨testWorld 5, []⟩).2.calls = ([] : List LogRequest) ++ new ∧
        List.Forall₂
          (fun (req : LogRequest) (e : Int × GoString) =>
            req.Level = e.1 ∧ req.Message = e.2 ∧ req.Namespace = warnLogger.namespace_ ∧
              req.Writer = warnLogger.writer ∧ req.AddColor = warnLogger.addColor)
          new
          ([(LogLevelDebug, str "a"), (LogLevelError, str "b")].filter
            fun e => decide (warnLogger.logLevel ≤ e.1)) ∧
        (warnLogger.logAll [(LogLevelDebug, str "a"), (LogLevelError, str "b")]
          ⟨testWorld 5, []⟩).2.world =
          dispatchAll warnLogger.loggerImpl (IsZero warnLogger.lastCall) new (testWorld 5)) ∧
      (warnLogger.logLevel = LogLevelWarn → ∀ m1 m2 : GoString,
        ∃ q1 q2 : LogRequest,
          (((((warnLogger.Debug m1 ⟨testWorld 5, []⟩).1.Info m2
                (warnLogger.Debug m1 ⟨testWorld 5, []⟩).2).1.Warn (str "x")
              ((warnLogger.Debug m1 ⟨testWorld 5, []⟩).1.Info m2
                (warnLogger.Debug m1 ⟨testWorld 5, []⟩).2).2).1.Error (str "y")
              (((warnLogger.Debug m1 ⟨testWorld 5, []⟩).1.Info m2
                (warnLogger.Debug m1 ⟨testWorld 5, []⟩).2).1.Warn (str "x")
                ((warnLogger.Debug m1 ⟨testWorld 5, []⟩).1.Info m2
                  (warnLogger.Debug m1 ⟨testWorld 5, []⟩).2).2).2).2.calls =
            ([] : List LogRequest) ++ [q1, q2]) ∧
          q1.Level = LogLevelWarn ∧ q1.Message = str "x" ∧
          q2.Level = LogLevelError ∧ q2.Message = str "y" ∧
          (((((warnLogger.Debug m1 ⟨testWorld 5, []⟩).1.Info m2
                (warnLogger.Debug m1 ⟨testWorld 5, []⟩).2).1.Warn (str "x")
              ((warnLogger.Debug m1 ⟨testWorld 5, []⟩).1.Info m2
                (warnLogger.Debug m1 ⟨testWorld 5, []⟩).2).2).1.Error (str "y")
              (((warnLogger.Debug m1 ⟨testWorld 5, []⟩).1.Info m2
                (warnLogger.Debug m1 ⟨testWorld 5, []⟩).2).1.Warn (str "x")
                ((warnLogger.Debug m1 ⟨testWorld 5, []⟩).1.Info m2
                  (warnLogger.Debug m1 ⟨testWorld 5, []⟩).2).2).2).2.world =
            dispatch warnLogger.loggerImpl 1 q2
              (dispatch warnLogger.loggerImpl (if IsZero warnLogger.lastCall then 2 else 1) q1
                (testWorld 5))) ∧
          (warnLogger.loggerImpl = TextLogger →
            (((((warnLogger.Debug m1 ⟨testWorld 5, []⟩).1.Info m2
                  (warnLogger.Debug m1 ⟨testWorld 5, []⟩).2).1.Warn (str "x")
                ((warnLogger.Debug m1 ⟨testWorld 5, []⟩).1.Info m2
                  (warnLogger.Debug m1 ⟨testWorld 5, []⟩).2).2).1.Error (str "y")
                (((warnLogger.Debug m1 ⟨testWorld 5, []⟩).1.Info m2
                  (warnLogger.Debug m1 ⟨testWorld 5, []⟩).2).1.Warn (str "x")
                  ((warnLogger.Debug m1 ⟨testWorld 5, []⟩).1.Info m2
                    (warnLogger.Debug m1 ⟨testWorld 5, []⟩).2).2).2).2.world.writes =
              (testWorld 5).writes ++
                [(warnLogger.writer, warnLogger.addColor [.string warnLogger.namespace_] ++
                    str " [" ++ str "WARN" ++ str "] " ++ str "x" ++ str " " ++
                    warnLogger.addColor [.int64 (Milliseconds q1.Delay), .string (str "ms")]),
                 (warnLogger.writer, warnLogger.addColor [.string warnLogger.namespace_] ++
                    str " [" ++ str "ERROR" ++ str "] " ++ str "y" ++ str " " ++
                    warnLogger.addColor
                      [.int64 (Milliseconds q2.Delay), .string (str "ms")])])))) :=
  ⟨rfl, logAll_requests warnLogger _ ⟨testWorld 5, []⟩ rfl⟩

/-- The scenario on the text formatter with a clock whose readings are 5 ns apart: the
debug and info calls write nothing, the warn and error calls write one record each. -/
theorem log_records_example :
    (((warnLogger.Debug (str "d") ⟨testWorld 5, []⟩).1.Info (str "i")
        (warnLogger.Debug (str "d") ⟨testWorld 5, []⟩).2).2.world.writes = []) ∧
    ((warnLogger.logAll
        [(LogLevelDebug, str "d"), (LogLevelInfo, str "i"), (LogLevelWarn, str "x"),
          (LogLevelError, str "y")] ⟨testWorld 5, []⟩).2.world.writes =
      [(buffer, str "app [WARN] x 0ms"), (buffer, str "app [ERROR] y 0ms")]) := by
  constructor <;> decide
/-- The delay of the first admitted emission on a fresh logger: the clock is read once
to seed `lastCall` and once more by `time.Since`, and the request carries the difference
of the two readings. -/
theorem log_first_delay (l : Logger) (ll : Int) (message : GoString) (r : Run)
    (hz : l.lastCall = none) (he : l.enabled = true) (hl : l.logLevel ≤ ll) :
    ∃ req : LogRequest, (l.log ll message r).2.calls = r.calls ++ [req] ∧
      req.Delay = r.world.clock (r.world.tick + 1) - r.world.clock r.world.tick := by
  unfold Logger.log
  simp only [he, hl, decide_True, Bool.and_self, if_true, hz, IsZero, Option.isNone_none]
  exact ⟨_, rfl, rfl⟩

/-- C6 fails on the code. The scenario of `TestLoggerWithWriter` (namespace `"*"`,
`DEBUG=*`, `DEBUG_LEVEL=DEBUG`, a buffer as writer, first emission `Debug("Hello")` on a
logger whose `lastCall` is unset) under a clock whose successive readings are 2 ms
apart: the request carries a delay of 2,000,000 ns, not 0, and the text written is
`"* [DEBUG] Hello 2ms"`, not the `"* [DEBUG] Hello 0ms"` the test expects. -/
theorem first_emission_delay_nonzero :
    ∃ l, New plainLib (str "*") [WithWriter (some buffer)] (testWorld 2000000) =
        (.ok l, testWorld 2000000) ∧
      l.lastCall = none ∧
      ((l.Debug (str "Hello") ⟨testWorld 2000000, []⟩).2.calls.map fun req => req.Delay) =
        [2000000] ∧
      (l.Debug (str "Hello") ⟨testWorld 2000000, []⟩).2.world.writes =
        [(buffer, str "* [DEBUG] Hello 2ms")] := by
  refine ⟨_, rfl, rfl, ?_, ?_⟩ <;> decide

theorem FormatInt_examples :
    FormatInt 0 = str "0" ∧ FormatInt 7 = str "7" ∧ FormatInt 1234 = str "1234" ∧
    FormatInt (-5) = str "-5" ∧ FormatInt 1000000 = str "1000000" := by
  refine ⟨?_, ?_, ?_, ?_, ?_⟩ <;> decide

/-- C7. For a request with a valid level (whose name is `name`) and `fmt.Sprint` as its
colorize function, `TextLogger.Log` makes exactly one `Write` call, on the writer of the
request, with the text `namespace ++ " [" ++ name ++ "] " ++ message ++ " " ++
decimal(ms) ++ "ms"`, where `ms` is the delay in nanoseconds divided by 1,000,000 and
truncated toward zero; the text ends in `ms`, with no line break added, and nothing else
in the world changes. A debug `"Hello"` on namespace `"*"` with zero delay gives
`"* [DEBUG] Hello 0ms"`. -/
theorem TextLogger_Log_plain (lr : LogRequest) (w : World) (name : GoString)
    (hlevel : (lr.Level, name) ∈ [(LogLevelDebug, str "DEBUG"), (LogLevelInfo, str "INFO"),
      (LogLevelWarn, str "WARN"), (LogLevelError, str "ERROR")])
    (hcolor : lr.AddColor = Sprint) :
    TextLogger.Log lr w =
      { w with writes := w.writes ++ [(lr.Writer, lr.Namespace ++ str " [" ++ name ++ str "] " ++
          lr.Message ++ str " " ++ FormatInt (Int.tdiv lr.Delay 1000000) ++ str "ms")] } ∧
    ∀ writer : Writer,
      TextLogger.Log ⟨LogLevelDebug, str "*", str "Hello", writer, 0, Sprint⟩ w =
        { w with writes := w.writes ++ [(writer, str "* [DEBUG] Hello 0ms")] } := by
  constructor
  · have hname : (LogLevel.String lr.Level).1 = name := by
      simp only [List.mem_cons, Prod.mk.injEq, List.mem_singleton, List.mem_nil_iff,
        or_false] at hlevel
      rcases hlevel with ⟨h1, h2⟩ | ⟨h1, h2⟩ | ⟨h1, h2⟩ | ⟨h1, h2⟩ <;>
        rw [h1, h2] <;> decide
    simp only [TextLogger.Log, Fprint, hname, hcolor, Sprint, doPrintFrom, Arg.print,
      Arg.isString, Milliseconds]
    simp
  · intro writer
    have h : Sprint [.string (str "*")] ++ str " [" ++ (LogLevel.String LogLevelDebug).1 ++
        str "] " ++ str "Hello" ++ str " " ++
        Sprint [.int64 (Milliseconds 0), .string (str "ms")] = str "* [DEBUG] Hello 0ms" := by
      decide
    simp only [TextLogger.Log, Fprint, h]

theorem TextLogger_Log_plain_witness :
    ((LogLevelError, str "ERROR") ∈ [(LogLevelDebug, str "DEBUG"), (LogLevelInfo, str "INFO"),
      (LogLevelWarn, str "WARN"), (LogLevelError, str "ERROR")]) ∧
    (Sprint = Sprint) ∧
    (TextLogger.Log ⟨LogLevelError, str "app:db", str "boom", buffer, -2500000, Sprint⟩
        (testWorld 1) =
      { testWorld 1 with writes := (testWorld 1).writes ++ [(buffer, str "app:db" ++ str " [" ++
          str "ERROR" ++ str "] " ++ str "boom" ++ str " " ++
          FormatInt (Int.tdiv (-2500000) 1000000) ++ str "ms")] } ∧
      ∀ writer : Writer,
        TextLogger.Log ⟨LogLevelDebug, str "*", str "Hello", writer, 0, Sprint⟩ (testWorld 1) =
          { testWorld 1 with
            writes := (testWorld 1).writes ++ [(writer, str "* [DEBUG] Hello 0ms")] }) :=
  ⟨by decide, rfl,
    TextLogger_Log_plain ⟨LogLevelError, str "app:db", str "boom", buffer, -2500000, Sprint⟩
      (testWorld 1) (str "ERROR") (by decide) rfl⟩

/-- The text of the witness above: a negative delay of 2.5 ms is rendered `-2ms`. -/
theorem TextLogger_Log_negative_delay :
    (TextLogger.Log ⟨LogLevelError, str "app:db", str "boom", buffer, -2500000, Sprint⟩
      (testWorld 1)).writes = [(buffer, str "app:db [ERROR] boom -2ms")] := by
  decide
theorem concat_ne_nil (a s : GoString) : a ++ str ":" ++ s ≠ [] := by
  have h : str ":" = [0x3A] := by decide
  rw [h]
  simp

/-- C8. For every logger `l` and every non-empty sub-name `s`, `l.New(s)` returns
exactly what `New(l.namespace ++ ":" ++ s, WithWriter(l.writer),
WithLoggerImpl(l.loggerImpl))` returns in the same world. When the level name read from
`DEBUG_LEVEL` (default `WARN`) parses to `ll` and the pattern read from `DEBUG` (default
`*`) gives `isEnabled` the answer `b` for the child namespace, the call succeeds and the
child has namespace `l.namespace ++ ":" ++ s`, the writer and formatter of the parent,
an unset `lastCall`, `enabled = b` and threshold `ll`; the `enabled` flag, threshold and
`lastCall` of the parent play no part. If the level name does not parse, or `isEnabled`
fails, the call fails with that error. The world is left as it was. -/
theorem Logger_New_child (lib : ColorLib) (l : Logger) (s : GoString) (w : World)
    (hs : s ≠ []) :
    l.New lib s w =
      New lib (l.namespace_ ++ str ":" ++ s)
        [WithWriter (some l.writer), WithLoggerImpl l.loggerImpl] w ∧
    (∀ ll b, LogLevelFromString (lookupOr DEBUG_LEVEL (str "WARN") w) = (ll, none) →
      isEnabled (l.namespace_ ++ str ":" ++ s) (lookupOr DEBUG (str "*") w) = .ok b →
      l.New lib s w =
        (.ok
          { namespace_ := l.namespace_ ++ str ":" ++ s
            enabled := b
            writer := l.writer
            loggerImpl := l.loggerImpl
            logLevel := ll
            addColor :=
              if (LookupEnv DEBUG_COLOR w).isSome then
                RandomColorSprint lib (l.namespace_ ++ str ":" ++ s)
              else Sprint
            lastCall := none }, w)) ∧
    (∀ ll err, LogLevelFromString (lookupOr DEBUG_LEVEL (str "WARN") w) = (ll, some err) →
      l.New lib s w = (.error err, w)) ∧
    (∀ ll err, LogLevelFromString (lookupOr DEBUG_LEVEL (str "WARN") w) = (ll, none) →
      isEnabled (l.namespace_ ++ str ":" ++ s) (lookupOr DEBUG (str "*") w) = .error err →
      l.New lib s w = (.error (.regexp err), w)) := by
  have hne := concat_ne_nil l.namespace_ s
  refine ⟨?_, ?_, ?_, ?_⟩
  · simp [Logger.New, hs, Logger.getNamespace]
  · intro ll b hll hb
    rw [List.append_assoc] at hb
    simp [Logger.New, hs, Logger.getNamespace, New, hne, hll, hb, applyOptions, WithWriter,
      WithLoggerImpl]
  · intro ll err hll
    simp [Logger.New, hs, Logger.getNamespace, New, hne, hll]
  · intro ll err hll hb
    rw [List.append_assoc] at hb
    simp [Logger.New, hs, Logger.getNamespace, New, hne, hll, hb]

theorem Logger_New_child_witness :
    str "subnamespace" ≠ [] ∧
    (warnLogger.New plainLib (str "subnamespace") (testWorld 1) =
      New plainLib (warnLogger.namespace_ ++ str ":" ++ str "subnamespace")
        [WithWriter (some warnLogger.writer), WithLoggerImpl warnLogger.loggerImpl]
        (testWorld 1) ∧
    (∀ ll b, LogLevelFromString (lookupOr DEBUG_LEVEL (str "WARN") (testWorld 1)) = (ll, none) →
      isEnabled (warnLogger.namespace_ ++ str ":" ++ str "subnamespace")
        (lookupOr DEBUG (str "*") (testWorld 1)) = .ok b →
      warnLogger.New plainLib (str "subnamespace") (testWorld 1) =
        (.ok
          { namespace_ := warnLogger.namespace_ ++ str ":" ++ str "subnamespace"
            enabled := b
            writer := warnLogger.writer
            loggerImpl := warnLogger.loggerImpl
            logLevel := ll
            addColor :=
              if (LookupEnv DEBUG_COLOR (testWorld 1)).isSome then
                RandomColorSprint plainLib (warnLogger.namespace_ ++ str ":" ++ str "subnamespace")
              else Sprint
            lastCall := none }, testWorld 1)) ∧
    (∀ ll err,
      LogLevelFromString (lookupOr DEBUG_LEVEL (str "WARN") (testWorld 1)) = (ll, some err) →
      warnLogger.New plainLib (str "subnamespace") (testWorld 1) = (.error err, testWorld 1)) ∧
    (∀ ll err, LogLevelFromString (lookupOr DEBUG_LEVEL (str "WARN") (testWorld 1)) = (ll, none) →
      isEnabled (warnLogger.namespace_ ++ str ":" ++ str "subnamespace")
        (lookupOr DEBUG (str "*") (testWorld 1)) = .error err →
      warnLogger.New plainLib (str "subnamespace") (testWorld 1) =
        (.error (.regexp err), testWorld 1))) :=
  ⟨by decide, Logger_New_child plainLib warnLogger (str "subnamespace") (testWorld 1) (by decide)⟩

/-- The second half of `TestLoggerWithWriter`: the child `"subnamespace"` of the logger
`"*"` is created with the level and pattern of the environment and writes
`"*:subnamespace [DEBUG] Hello 0ms"` to the buffer of its parent. -/
theorem TestLoggerWithWriter_child :
    ∃ l c, New plainLib (str "*") [WithWriter (some buffer)] (testWorld 0) =
        (.ok l, testWorld 0) ∧
      l.New plainLib (str "subnamespace") (testWorld 0) = (.ok c, testWorld 0) ∧
      c.enabled = true ∧ c.logLevel = LogLevelDebug ∧ c.lastCall = none ∧
      (c.Debug (str "Hello") ⟨testWorld 0, []⟩).2.world.writes =
        [(buffer, str "*:subnamespace [DEBUG] Hello 0ms")] := by
  refine ⟨_, _, rfl, rfl, ?_, ?_, ?_, ?_⟩ <;> decide

/-- C9. In every world (whatever `DEBUG_LEVEL` holds) and for every list of options,
`New("", options...)` returns the error `InvalidNamespaceError` and no logger, and leaves
the world as it was: no option has acted. -/
theorem New_empty_namespace (lib : ColorLib) (options : List LoggerOption) (w : World) :
    New lib [] options w = (.error .InvalidNamespaceError, w) := by
  simp [New]

/-- C10. For every logger `l` and every world, `l.New("")` returns the error
`InvalidNamespaceError` and no logger, and leaves the world as it was; it is not the
result of building a logger named `l.namespace ++ ":"`, which succeeds in a world where
the level name parses and the pattern compiles. -/
theorem Logger_New_empty (lib : ColorLib) (l : Logger) (w : World) :
    l.New lib [] w = (.error .InvalidNamespaceError, w) ∧
    (∀ c w', l.New lib [] w ≠ (.ok c, w')) ∧
    ∃ c, New lib (str "app:") [WithWriter (some buffer), WithLoggerImpl TextLogger]
      (testWorld 0) = (.ok c, testWorld 0) := by
  have h : l.New lib [] w = (.error .InvalidNamespaceError, w) := by simp [Logger.New]
  refine ⟨h, ?_, _, rfl⟩
  intro c w' hc
  rw [h] at hc
  simp at hc

/-! ## Levels and their names -/

theorem LogLevelFromString_cases (S : GoString) :
    (S = str "DEBUG" ∧ LogLevelFromString S = (LogLevelDebug, none)) ∨
    (S = str "INFO" ∧ LogLevelFromString S = (LogLevelInfo, none)) ∨
    (S = str "WARN" ∧ LogLevelFromString S = (LogLevelWarn, none)) ∨
    (S = str "ERROR" ∧ LogLevelFromString S = (LogLevelError, none)) ∨
    (S ∉ levelNames ∧ LogLevelFromString S = (-1, some (.InvalidLogLevelError (-1)))) := by
  by_cases h1 : S = str "DEBUG"
  · left
    subst h1
    exact ⟨rfl, by decide⟩
  · by_cases h2 : S = str "INFO"
    · right; left
      subst h2
      exact ⟨rfl, by decide⟩
    · by_cases h3 : S = str "WARN"
      · right; right; left
        subst h3
        exact ⟨rfl, by decide⟩
      · by_cases h4 : S = str "ERROR"
        · right; right; right; left
          subst h4
          exact ⟨rfl, by decide⟩
        · right; right; right; right
          refine ⟨by simp [levelNames, h1, h2, h3, h4], ?_⟩
          simp [LogLevelFromString, h1, h2, h3, h4]

theorem LogLevel_String_cases (n : Int) :
    (n = 0 ∧ LogLevel.String n = (str "DEBUG", none)) ∨
    (n = 1 ∧ LogLevel.String n = (str "INFO", none)) ∨
    (n = 2 ∧ LogLevel.String n = (str "WARN", none)) ∨
    (n = 3 ∧ LogLevel.String n = (str "ERROR", none)) ∨
    ((n < 0 ∨ 3 < n) ∧ LogLevel.String n = ([], some (.InvalidLogLevelError n))) := by
  by_cases h1 : n = 0
  · left
    subst h1
    exact ⟨rfl, by decide⟩
  · by_cases h2 : n = 1
    · right; left
      subst h2
      exact ⟨rfl, by decide⟩
    · by_cases h3 : n = 2
      · right; right; left
        subst h3
        exact ⟨rfl, by decide⟩
      · by_cases h4 : n = 3
        · right; right; right; left
          subst h4
          exact ⟨rfl, by decide⟩
        · right; right; right; right
          refine ⟨by omega, ?_⟩
          simp [LogLevel.String, LogLevelDebug, LogLevelInfo, LogLevelWarn, LogLevelError,
            h1, h2, h3, h4]

theorem levelNames_mem (S : GoString) :
    S ∈ levelNames ↔ S = str "DEBUG" ∨ S = str "INFO" ∨ S = str "WARN" ∨ S = str "ERROR" := by
  simp [levelNames]

/-- C13. Conversion between levels and names succeeds exactly on the four values.
`LogLevelFromString S` returns no error exactly when `S` is one of `"DEBUG"`, `"INFO"`,
`"WARN"`, `"ERROR"`, and then the level is 0, 1, 2, 3 respectively; for every other
string, lowercase spellings included, it returns `-1` and an `InvalidLogLevelError`.
`LogLevel.String` returns no error exactly when the ordinal is 0, 1, 2 or 3, and then the
name is `DEBUG`, `INFO`, `WARN`, `ERROR` respectively; for every other integer it returns
the empty string and an `InvalidLogLevelError`. -/
theorem level_conversions (S : GoString) (n : Int) :
    ((LogLevelFromString S).2 = none ↔ S ∈ levelNames) ∧
    (S ∈ levelNames ∨ LogLevelFromString S = (-1, some (.InvalidLogLevelError (-1)))) ∧
    ((LogLevel.String n).2 = none ↔ n = 0 ∨ n = 1 ∨ n = 2 ∨ n = 3) ∧
    ((n = 0 ∨ n = 1 ∨ n = 2 ∨ n = 3) ∨ LogLevel.String n = ([], some (.InvalidLogLevelError n))) ∧
    (LogLevelFromString (str "DEBUG") = (0, none) ∧ LogLevelFromString (str "INFO") = (1, none) ∧
      LogLevelFromString (str "WARN") = (2, none) ∧ LogLevelFromString (str "ERROR") = (3, none)) ∧
    (LogLevel.String 0 = (str "DEBUG", none) ∧ LogLevel.String 1 = (str "INFO", none) ∧
      LogLevel.String 2 = (str "WARN", none) ∧ LogLevel.String 3 = (str "ERROR", none)) ∧
    (LogLevelFromString (str "debug") = (-1, some (.InvalidLogLevelError (-1))) ∧
      LogLevelFromString (str "trace") = (-1, some (.InvalidLogLevelError (-1))) ∧
      LogLevelFromString [] = (-1, some (.InvalidLogLevelError (-1)))) := by
  refine ⟨?_, ?_, ?_, ?_, by decide, by decide, by decide⟩
  · rw [levelNames_mem]
    rcases LogLevelFromString_cases S with ⟨h, e⟩ | ⟨h, e⟩ | ⟨h, e⟩ | ⟨h, e⟩ | ⟨h, e⟩
    · rw [e]
      simp [h]
    · rw [e]
      simp [h]
    · rw [e]
      simp [h]
    · rw [e]
      simp [h]
    · rw [levelNames_mem] at h
      simp [e, h]
  · rcases LogLevelFromString_cases S with ⟨h, _⟩ | ⟨h, _⟩ | ⟨h, _⟩ | ⟨h, _⟩ | ⟨_, e⟩
    · exact Or.inl (by simp [levelNames, h])
    · exact Or.inl (by simp [levelNames, h])
    · exact Or.inl (by simp [levelNames, h])
    · exact Or.inl (by simp [levelNames, h])
    · exact Or.inr e
  · rcases LogLevel_String_cases n with ⟨h, e⟩ | ⟨h, e⟩ | ⟨h, e⟩ | ⟨h, e⟩ | ⟨h, e⟩
    · rw [e]
      simp [h]
    · rw [e]
      simp [h]
    · rw [e]
      simp [h]
    · rw [e]
      simp [h]
    · simp only [e]
      constructor
      · intro h'
        simp at h'
      · intro h'
        omega
  · rcases LogLevel_String_cases n with ⟨h, _⟩ | ⟨h, _⟩ | ⟨h, _⟩ | ⟨h, _⟩ | ⟨_, e⟩
    · exact Or.inl (by omega)
    · exact Or.inl (by omega)
    · exact Or.inl (by omega)
    · exact Or.inl (by omega)
    · exact Or.inr e

theorem LogLevelFromString_pairs (L : Int) (S : GoString) :
    LogLevelFromString S = (L, none) ↔
      (L, S) ∈ [((0 : Int), str "DEBUG"), (1, str "INFO"), (2, str "WARN"), (3, str "ERROR")] := by
  simp only [List.mem_cons, Prod.mk.injEq, List.mem_singleton, List.mem_nil_iff, or_false]
  rcases LogLevelFromString_cases S with ⟨h, e⟩ | ⟨h, e⟩ | ⟨h, e⟩ | ⟨h, e⟩ | ⟨h, e⟩
  · subst h
    have d : str "DEBUG" ≠ str "INFO" ∧ str "DEBUG" ≠ str "WARN" ∧ str "DEBUG" ≠ str "ERROR" := by
      decide
    simp [e, LogLevelDebug, d, eq_comm]
  · subst h
    have d : str "INFO" ≠ str "DEBUG" ∧ str "INFO" ≠ str "WARN" ∧ str "INFO" ≠ str "ERROR" := by
      decide
    simp [e, LogLevelInfo, d, eq_comm]
  · subst h
    have d : str "WARN" ≠ str "DEBUG" ∧ str "WARN" ≠ str "INFO" ∧ str "WARN" ≠ str "ERROR" := by
      decide
    simp [e, LogLevelWarn, d, eq_comm]
  · subst h
    have d : str "ERROR" ≠ str "DEBUG" ∧ str "ERROR" ≠ str "INFO" ∧
        str "ERROR" ≠ str "WARN" := by
      decide
    simp [e, LogLevelError, d, eq_comm]
  · rw [levelNames_mem] at h
    simp only [e, Prod.mk.injEq]
    constructor
    · intro h'
      simp at h'
    · rintro (⟨-, h'⟩ | ⟨-, h'⟩ | ⟨-, h'⟩ | ⟨-, h'⟩) <;> exact absurd (by simp [h']) h

theorem LogLevel_String_pairs (L : Int) (S : GoString) :
    LogLevel.String L = (S, none) ↔
      (L, S) ∈ [((0 : Int), str "DEBUG"), (1, str "INFO"), (2, str "WARN"), (3, str "ERROR")] := by
  simp only [List.mem_cons, Prod.mk.injEq, List.mem_singleton, List.mem_nil_iff, or_false]
  rcases LogLevel_String_cases L with ⟨h, e⟩ | ⟨h, e⟩ | ⟨h, e⟩ | ⟨h, e⟩ | ⟨h, e⟩
  · subst h
    simp [e, eq_comm]
  · subst h
    simp [e, eq_comm]
  · subst h
    simp [e, eq_comm]
  · subst h
    simp [e, eq_comm]
  · simp only [e, Prod.mk.injEq]
    constructor
    · intro h'
      simp at h'
    · intro h'
      omega

/-- C14. `LogLevel.String` and `LogLevelFromString` are mutually inverse wherever they
succeed: `L.String()` returns the name `S` without error exactly when
`LogLevelFromString(S)` returns the level `L` without error; both happen for the four
pairs `0`/`DEBUG`, `1`/`INFO`, `2`/`WARN`, `3`/`ERROR`, and for no other pair. -/
theorem level_roundtrip (L : Int) (S : GoString) :
    (LogLevel.String L = (S, none) ↔ LogLevelFromString S = (L, none)) ∧
    (LogLevelFromString S = (L, none) ↔
      (L, S) ∈ [((0 : Int), str "DEBUG"), (1, str "INFO"), (2, str "WARN"), (3, str "ERROR")]) := by
  constructor
  · rw [LogLevel_String_pairs, LogLevelFromString_pairs]
  · exact LogLevelFromString_pairs L S
theorem New_level_error (lib : ColorLib) (ns : GoString) (options : List LoggerOption) (w : World)
    (hns : ns ≠ []) (hS : lookupOr DEBUG_LEVEL (str "WARN") w ∉ levelNames) :
    New lib ns options w = (.error (.InvalidLogLevelError (-1)), w) := by
  rcases LogLevelFromString_cases (lookupOr DEBUG_LEVEL (str "WARN") w) with
    ⟨h, _⟩ | ⟨h, _⟩ | ⟨h, _⟩ | ⟨h, _⟩ | ⟨_, e⟩
  · exact absurd (by simp [levelNames, h]) hS
  · exact absurd (by simp [levelNames, h]) hS
  · exact absurd (by simp [levelNames, h]) hS
  · exact absurd (by simp [levelNames, h]) hS
  · simp [New, hns, e]

/-- C15 (as amended). For every string `S` that is not one of the four canonical level
names, the error returned by `LogLevelFromString(S)`, and so by `New` when `DEBUG_LEVEL`
is `S`, is an `InvalidLogLevelError` with number `-1`, whose message is
`"Invalid log level: -1"` whatever `S` is: the message does not carry the text `S`. For
every out-of-range ordinal `n`, the message of the error returned by
`LogLevel(n).String()` is `"Invalid log level: "` followed by `n` in decimal, so it
includes `n`. -/
theorem level_error_messages (S : GoString) (n : Int) (hS : S ∉ levelNames)
    (hn : n < 0 ∨ 3 < n) :
    ((LogLevelFromString S).2 = some (.InvalidLogLevelError (-1)) ∧
      InvalidLogLevelError.Error (-1) = str "Invalid log level: -1") ∧
    (∀ (lib : ColorLib) (ns : GoString) (options : List LoggerOption) (w : World), ns ≠ [] →
      lookupOr DEBUG_LEVEL (str "WARN") w = S →
      New lib ns options w = (.error (.InvalidLogLevelError (-1)), w)) ∧
    ((LogLevel.String n).2 = some (.InvalidLogLevelError n) ∧
      InvalidLogLevelError.Error n = str "Invalid log level: " ++ FormatInt n ∧
      FormatInt n <:+: InvalidLogLevelError.Error n) := by
  refine ⟨⟨?_, by decide⟩, ?_, ?_, rfl, ?_⟩
  · rcases LogLevelFromString_cases S with ⟨h, _⟩ | ⟨h, _⟩ | ⟨h, _⟩ | ⟨h, _⟩ | ⟨_, e⟩
    · exact absurd (by simp [levelNames, h]) hS
    · exact absurd (by simp [levelNames, h]) hS
    · exact absurd (by simp [levelNames, h]) hS
    · exact absurd (by simp [levelNames, h]) hS
    · rw [e]
  · intro lib ns options w hns hw
    exact New_level_error lib ns options w hns (by rw [hw]; exact hS)
  · rcases LogLevel_String_cases n with ⟨h, _⟩ | ⟨h, _⟩ | ⟨h, _⟩ | ⟨h, _⟩ | ⟨_, e⟩
    · omega
    · omega
    · omega
    · omega
    · rw [e]
  · exact ⟨str "Invalid log level: ", [], by simp [InvalidLogLevelError.Error]⟩

theorem level_error_messages_witness :
    str "trace" ∉ levelNames ∧ ((7 : Int) < 0 ∨ 3 < (7 : Int)) ∧
    (((LogLevelFromString (str "trace")).2 = some (.InvalidLogLevelError (-1)) ∧
      InvalidLogLevelError.Error (-1) = str "Invalid log level: -1") ∧
    (∀ (lib : ColorLib) (ns : GoString) (options : List LoggerOption) (w : World), ns ≠ [] →
      lookupOr DEBUG_LEVEL (str "WARN") w = str "trace" →
      New lib ns options w = (.error (.InvalidLogLevelError (-1)), w)) ∧
    ((LogLevel.String 7).2 = some (.InvalidLogLevelError 7) ∧
      InvalidLogLevelError.Error 7 = str "Invalid log level: " ++ FormatInt 7 ∧
      FormatInt 7 <:+: InvalidLogLevelError.Error 7)) :=
  ⟨by decide, by decide, level_error_messages (str "trace") 7 (by decide) (by decide)⟩

/-- C15 (as stated) fails. `"trace"` is not a level name, and the error that
`LogLevelFromString("trace")` returns has the message `"Invalid log level: -1"`, in which
the text `trace` does not occur. -/
theorem level_error_message_counterexample :
    str "trace" ∉ levelNames ∧
    (LogLevelFromString (str "trace")).2 = some (.InvalidLogLevelError (-1)) ∧
    InvalidLogLevelError.Error (-1) = str "Invalid log level: -1" ∧
    ¬ (str "trace" <:+: InvalidLogLevelError.Error (-1)) := by
  refine ⟨by decide, by decide, by decide, ?_⟩
  decide
/-! ## Construction -/

theorem applyOptions_std (opts : List StdOption) : ∀ (l : Logger) (w : World),
    applyOptions (opts.map StdOption.toOption) l w =
      ({ l with
          writer :=
            match lastWriter opts with
            | none => l.writer
            | some none => .Discard
            | some (some writer) => writer
          loggerImpl :=
            match lastLoggerImpl opts with
            | none => l.loggerImpl
            | some loggerImpl => loggerImpl }, w) := by
  induction opts with
  | nil =>
    intro l w
    rfl
  | cons o rest ih =>
    intro l w
    simp only [List.map_cons, applyOptions, ih, lastWriter, lastLoggerImpl]
    cases o with
    | withWriter writer =>
      cases hw : lastWriter rest with
      | none =>
        cases hi : lastLoggerImpl rest <;> cases writer <;>
          simp [StdOption.toOption, WithWriter]
      | some x =>
        cases hi : lastLoggerImpl rest <;> cases writer <;> cases x <;>
          simp [StdOption.toOption, WithWriter]
    | withLoggerImpl loggerImpl =>
      cases hw : lastWriter rest with
      | none =>
        cases hi : lastLoggerImpl rest <;> simp [StdOption.toOption, WithLoggerImpl]
      | some x =>
        cases hi : lastLoggerImpl rest <;> cases x <;>
          simp [StdOption.toOption, WithLoggerImpl]

theorem New_std_ok (lib : ColorLib) (ns : GoString) (opts : List StdOption) (w : World)
    (hns : ns ≠ []) (ll : Int) (b : Bool)
    (hl : LogLevelFromString (lookupOr DEBUG_LEVEL (str "WARN") w) = (ll, none))
    (hb : isEnabled ns (lookupOr DEBUG (str "*") w) = .ok b) :
    New lib ns (opts.map StdOption.toOption) w =
      (.ok
        { namespace_ := ns
          enabled := b
          writer := writerAfter opts
          loggerImpl := loggerImplAfter opts
          logLevel := ll
          addColor := if (LookupEnv DEBUG_COLOR w).isSome then RandomColorSprint lib ns else Sprint
          lastCall := none }, w) := by
  simp only [New, hns, if_false, hl, hb, applyOptions_std, writerAfter, loggerImplAfter]

theorem New_pattern_error (lib : ColorLib) (ns : GoString) (options : List LoggerOption)
    (w : World) (hns : ns ≠ []) (ll : Int) (err : RegexpError)
    (hl : LogLevelFromString (lookupOr DEBUG_LEVEL (str "WARN") w) = (ll, none))
    (hb : isEnabled ns (lookupOr DEBUG (str "*") w) = .error err) :
    New lib ns options w = (.error (.regexp err), w) := by
  simp only [New, hns, if_false, hl, hb]

/-- The three outcomes of `New` on a non-empty namespace with options of the package. -/
theorem New_std_cases (lib : ColorLib) (ns : GoString) (opts : List StdOption) (w : World)
    (hns : ns ≠ []) :
    (lookupOr DEBUG_LEVEL (str "WARN") w ∉ levelNames ∧
      New lib ns (opts.map StdOption.toOption) w = (.error (.InvalidLogLevelError (-1)), w)) ∨
    (∃ ll err, lookupOr DEBUG_LEVEL (str "WARN") w ∈ levelNames ∧
      LogLevelFromString (lookupOr DEBUG_LEVEL (str "WARN") w) = (ll, none) ∧
      isEnabled ns (lookupOr DEBUG (str "*") w) = .error err ∧
      New lib ns (opts.map StdOption.toOption) w = (.error (.regexp err), w)) ∨
    (∃ ll b, lookupOr DEBUG_LEVEL (str "WARN") w ∈ levelNames ∧
      LogLevelFromString (lookupOr DEBUG_LEVEL (str "WARN") w) = (ll, none) ∧
      isEnabled ns (lookupOr DEBUG (str "*") w) = .ok b ∧
      New lib ns (opts.map StdOption.toOption) w =
        (.ok
          { namespace_ := ns
            enabled := b
            writer := writerAfter opts
            loggerImpl := loggerImplAfter opts
            logLevel := ll
            addColor :=
              if (LookupEnv DEBUG_COLOR w).isSome then RandomColorSprint lib ns else Sprint
            lastCall := none }, w)) := by
  by_cases hS : lookupOr DEBUG_LEVEL (str "WARN") w ∈ levelNames
  · have hl : ∃ ll, LogLevelFromString (lookupOr DEBUG_LEVEL (str "WARN") w) = (ll, none) := by
      rcases LogLevelFromString_cases (lookupOr DEBUG_LEVEL (str "WARN") w) with
        ⟨_, e⟩ | ⟨_, e⟩ | ⟨_, e⟩ | ⟨_, e⟩ | ⟨h, _⟩
      · exact ⟨_, e⟩
      · exact ⟨_, e⟩
      · exact ⟨_, e⟩
      · exact ⟨_, e⟩
      · exact absurd hS h
    obtain ⟨ll, hl⟩ := hl
    cases hb : isEnabled ns (lookupOr DEBUG (str "*") w) with
    | error err =>
      right; left
      exact ⟨ll, err, hS, hl, rfl, New_pattern_error lib ns _ w hns ll err hl hb⟩
    | ok b =>
      right; right
      exact ⟨ll, b, hS, hl, rfl, New_std_ok lib ns opts w hns ll b hl hb⟩
  · left
    exact ⟨hS, New_level_error lib ns _ w hns hS⟩
/-- C11. For every non-empty namespace, every environment and every list of options of
the package, let `S` be the value of `DEBUG_LEVEL`, or `"WARN"` when `DEBUG_LEVEL` is
unset or empty. `New` fails with an `InvalidLogLevelError` exactly when `S` is not one of
`"DEBUG"`, `"INFO"`, `"WARN"`, `"ERROR"`. Otherwise every logger `New` returns has as
threshold the level named `S`, and `New` does return a logger whenever the pattern read
from `DEBUG` is valid UTF-8. So the threshold is `WARN` when `DEBUG_LEVEL` is unset or
empty. -/
theorem New_threshold (lib : ColorLib) (ns : GoString) (opts : List StdOption) (w : World)
    (hns : ns ≠ []) :
    ((∃ n, (New lib ns (opts.map StdOption.toOption) w).1 = .error (.InvalidLogLevelError n)) ↔
      lookupOr DEBUG_LEVEL (str "WARN") w ∉ levelNames) ∧
    (∀ l w', New lib ns (opts.map StdOption.toOption) w = (.ok l, w') →
      LogLevelFromString (lookupOr DEBUG_LEVEL (str "WARN") w) = (l.logLevel, none) ∧
      LogLevel.String l.logLevel = (lookupOr DEBUG_LEVEL (str "WARN") w, none)) ∧
    (lookupOr DEBUG_LEVEL (str "WARN") w ∈ levelNames →
      utf8Valid (lookupOr DEBUG (str "*") w) = true →
      ∃ l, New lib ns (opts.map StdOption.toOption) w = (.ok l, w)) ∧
    ((LookupEnv DEBUG_LEVEL w = none ∨ LookupEnv DEBUG_LEVEL w = some []) →
      lookupOr DEBUG_LEVEL (str "WARN") w = str "WARN" ∧
      ∀ l w', New lib ns (opts.map StdOption.toOption) w = (.ok l, w') →
        l.logLevel = LogLevelWarn) := by
  have hcases := New_std_cases lib ns opts w hns
  have hlevel : ∀ l w', New lib ns (opts.map StdOption.toOption) w = (.ok l, w') →
      LogLevelFromString (lookupOr DEBUG_LEVEL (str "WARN") w) = (l.logLevel, none) := by
    intro l w' h
    rcases hcases with ⟨_, e⟩ | ⟨ll, err, _, _, _, e⟩ | ⟨ll, b, _, hl, _, e⟩
    · rw [e] at h
      simp at h
    · rw [e] at h
      simp at h
    · rw [e] at h
      simp only [Prod.mk.injEq, Except.ok.injEq] at h
      rw [← h.1]
      exact hl
  refine ⟨?_, ?_, ?_, ?_⟩
  · constructor
    · rintro ⟨n, hn⟩
      rcases hcases with ⟨h, _⟩ | ⟨ll, err, _, _, _, e⟩ | ⟨ll, b, _, _, _, e⟩
      · exact h
      · rw [e] at hn
        simp at hn
      · rw [e] at hn
        simp at hn
    · intro h
      exact ⟨-1, by rw [New_level_error lib ns _ w hns h]⟩
  · intro l w' h
    exact ⟨hlevel l w' h,
      (LogLevel_String_pairs _ _).mpr ((LogLevelFromString_pairs _ _).mp (hlevel l w' h))⟩
  · intro hS hv
    rcases hcases with ⟨h, _⟩ | ⟨ll, err, _, _, hb, _⟩ | ⟨ll, b, _, _, _, e⟩
    · exact absurd hS h
    · rw [isEnabled_valid ns _ hv] at hb
      simp at hb
    · exact ⟨_, e⟩
  · intro hunset
    have hS : lookupOr DEBUG_LEVEL (str "WARN") w = str "WARN" := by
      rcases hunset with h | h <;> simp [lookupOr, h]
    refine ⟨hS, ?_⟩
    intro l w' h
    have := hlevel l w' h
    rw [hS] at this
    have e : LogLevelFromString (str "WARN") = (LogLevelWarn, none) := by decide
    rw [e] at this
    simp only [Prod.mk.injEq, and_true] at this
    exact this.symm
theorem New_threshold_witness :
    str "app" ≠ [] ∧
    (((∃ n, (New plainLib (str "app") (someOptions.map StdOption.toOption) bareWorld).1 =
        .error (.InvalidLogLevelError n)) ↔
      lookupOr DEBUG_LEVEL (str "WARN") bareWorld ∉ levelNames) ∧
    (∀ l w', New plainLib (str "app") (someOptions.map StdOption.toOption) bareWorld = (.ok l, w') →
      LogLevelFromString (lookupOr DEBUG_LEVEL (str "WARN") bareWorld) = (l.logLevel, none) ∧
      LogLevel.String l.logLevel = (lookupOr DEBUG_LEVEL (str "WARN") bareWorld, none)) ∧
    (lookupOr DEBUG_LEVEL (str "WARN") bareWorld ∈ levelNames →
      utf8Valid (lookupOr DEBUG (str "*") bareWorld) = true →
      ∃ l, New plainLib (str "app") (someOptions.map StdOption.toOption) bareWorld =
        (.ok l, bareWorld)) ∧
    ((LookupEnv DEBUG_LEVEL bareWorld = none ∨ LookupEnv DEBUG_LEVEL bareWorld = some []) →
      lookupOr DEBUG_LEVEL (str "WARN") bareWorld = str "WARN" ∧
      ∀ l w', New plainLib (str "app") (someOptions.map StdOption.toOption) bareWorld =
          (.ok l, w') →
        l.logLevel = LogLevelWarn)) :=
  ⟨by decide, New_threshold plainLib (str "app") someOptions bareWorld (by decide)⟩

/-- The scenario `DEBUG_LEVEL=trace`: construction fails with the invalid-level error. -/
theorem New_level_trace (lib : ColorLib) (w : World) (options : List LoggerOption)
    (h : LookupEnv DEBUG_LEVEL w = some (str "trace")) :
    New lib (str "app") options w = (.error (.InvalidLogLevelError (-1)), w) := by
  have hS : lookupOr DEBUG_LEVEL (str "WARN") w = str "trace" := by
    have hne : str "trace" ≠ [] := by decide
    simp [lookupOr, h, hne]
  exact New_level_error lib (str "app") options w (by decide) (by rw [hS]; decide)

/-- C12. For every non-empty namespace `ns`, every environment and every list of options
of the package, a logger returned by `New` has as `enabled` flag the answer of
`isEnabled(ns, P)`, where `P` is the value of `DEBUG`, or `"*"` when `DEBUG` is unset or
empty. So when `DEBUG` is unset, empty or `"*"`, every logger `New` returns is enabled
(and `New` does return one whenever the level name is valid). -/
theorem New_enabled (lib : ColorLib) (ns : GoString) (opts : List StdOption) (w : World)
    (hns : ns ≠ []) :
    (∀ l w', New lib ns (opts.map StdOption.toOption) w = (.ok l, w') →
      isEnabled ns (lookupOr DEBUG (str "*") w) = .ok l.enabled) ∧
    ((LookupEnv DEBUG w = none ∨ LookupEnv DEBUG w = some [] ∨
        LookupEnv DEBUG w = some (str "*")) →
      lookupOr DEBUG (str "*") w = str "*" ∧
      (∀ l w', New lib ns (opts.map StdOption.toOption) w = (.ok l, w') → l.enabled = true) ∧
      (lookupOr DEBUG_LEVEL (str "WARN") w ∈ levelNames →
        ∃ l, New lib ns (opts.map StdOption.toOption) w = (.ok l, w) ∧ l.enabled = true)) := by
  have hcases := New_std_cases lib ns opts w hns
  have hen : ∀ l w', New lib ns (opts.map StdOption.toOption) w = (.ok l, w') →
      isEnabled ns (lookupOr DEBUG (str "*") w) = .ok l.enabled := by
    intro l w' h
    rcases hcases with ⟨_, e⟩ | ⟨ll, err, _, _, _, e⟩ | ⟨ll, b, _, _, hb, e⟩
    · rw [e] at h
      simp at h
    · rw [e] at h
      simp at h
    · rw [e] at h
      simp only [Prod.mk.injEq, Except.ok.injEq] at h
      rw [← h.1]
      exact hb
  refine ⟨hen, ?_⟩
  intro hunset
  have hP : lookupOr DEBUG (str "*") w = str "*" := by
    rcases hunset with h | h | h <;> simp [lookupOr, h]
  have hstar : isEnabled ns (str "*") = .ok true := by
    have hv : utf8Valid (str "*") = true := by decide
    have hr : (runes (str "*")).map pieceOf = [⟨.anyCharNotNL, true⟩] := by decide
    rw [isEnabled_valid ns _ hv, hr, matchFrom_any_star]
  have htrue : ∀ l w', New lib ns (opts.map StdOption.toOption) w = (.ok l, w') →
      l.enabled = true := by
    intro l w' h
    have := hen l w' h
    rw [hP, hstar] at this
    simp only [Except.ok.injEq] at this
    exact this.symm
  refine ⟨hP, htrue, ?_⟩
  intro hS
  rcases hcases with ⟨h, _⟩ | ⟨ll, err, _, _, hb, _⟩ | ⟨ll, b, _, _, _, e⟩
  · exact absurd hS h
  · rw [hP, hstar] at hb
    simp at hb
  · exact ⟨_, e, htrue _ _ e⟩

theorem New_enabled_witness :
    str "app" ≠ [] ∧
    ((∀ l w', New plainLib (str "app") (someOptions.map StdOption.toOption) bareWorld = (.ok l, w') →
      isEnabled (str "app") (lookupOr DEBUG (str "*") bareWorld) = .ok l.enabled) ∧
    ((LookupEnv DEBUG bareWorld = none ∨ LookupEnv DEBUG bareWorld = some [] ∨
        LookupEnv DEBUG bareWorld = some (str "*")) →
      lookupOr DEBUG (str "*") bareWorld = str "*" ∧
      (∀ l w', New plainLib (str "app") (someOptions.map StdOption.toOption) bareWorld =
          (.ok l, w') → l.enabled = true) ∧
      (lookupOr DEBUG_LEVEL (str "WARN") bareWorld ∈ levelNames →
        ∃ l, New plainLib (str "app") (someOptions.map StdOption.toOption) bareWorld =
          (.ok l, bareWorld) ∧ l.enabled = true))) :=
  ⟨by decide, New_enabled plainLib (str "app") someOptions bareWorld (by decide)⟩

/-- The namespace-filtering scenario: with `DEBUG=app:*`, the loggers `app:db` and
`app:web` are enabled and the logger `other` is not. -/
theorem namespace_filtering :
    isEnabled (str "app:db") (str "app:*") = .ok true ∧
    isEnabled (str "app:web") (str "app:*") = .ok true ∧
    isEnabled (str "other") (str "app:*") = .ok false := by
  refine ⟨?_, ?_, ?_⟩ <;> decide

/-- C16. For every non-empty namespace, every environment and every list of options
built from `WithWriter` and `WithLoggerImpl`: if `New` without options returns the logger
`l0`, then `New` with the options returns `l0` with two fields replaced, the writer by
that of the last `WithWriter` (the discard sink for a nil argument; standard output, the
writer of `l0`, when there is none) and the formatter by that of the last
`WithLoggerImpl` (the text formatter, that of `l0`, when there is none); namespace,
`enabled`, threshold, colorize function and the unset `lastCall` are those of `l0`. If
`New` without options fails, `New` with the options fails with the same error. -/
theorem New_options (lib : ColorLib) (ns : GoString) (opts : List StdOption) (w : World)
    (hns : ns ≠ []) :
    (∀ l0 w0, New lib ns [] w = (.ok l0, w0) →
      New lib ns (opts.map StdOption.toOption) w =
        (.ok { l0 with writer := writerAfter opts, loggerImpl := loggerImplAfter opts }, w0) ∧
      l0.writer = .Stdout ∧ l0.loggerImpl = TextLogger ∧ l0.lastCall = none) ∧
    (∀ err w0, New lib ns [] w = (.error err, w0) →
      New lib ns (opts.map StdOption.toOption) w = (.error err, w0)) ∧
    (writerAfter [] = .Stdout ∧ loggerImplAfter [] = TextLogger) ∧
    (∀ (pre : List StdOption) (writer : Option Writer) (impls : List LoggerImpl),
      writerAfter (pre ++ .withWriter writer :: impls.map .withLoggerImpl) =
        match writer with
        | none => .Discard
        | some x => x) ∧
    (∀ (pre : List StdOption) (impl : LoggerImpl) (writers : List (Option Writer)),
      loggerImplAfter (pre ++ .withLoggerImpl impl :: writers.map .withWriter) = impl) := by
  have h0 := New_std_cases lib ns [] w hns
  have h1 := New_std_cases lib ns opts w hns
  simp only [List.map_nil] at h0
  refine ⟨?_, ?_, ⟨rfl, rfl⟩, ?_, ?_⟩
  · intro l0 w0 h
    rcases h0 with ⟨_, e⟩ | ⟨ll, err, _, _, _, e⟩ | ⟨ll, b, _, hl, hb, e⟩
    · rw [e] at h
      simp at h
    · rw [e] at h
      simp at h
    · rw [e] at h
      simp only [Prod.mk.injEq, Except.ok.injEq] at h
      obtain ⟨rfl, rfl⟩ := h
      refine ⟨?_, rfl, rfl, rfl⟩
      rw [New_std_ok lib ns opts w hns ll b hl hb]
  · intro err w0 h
    rcases h0 with ⟨hS, e⟩ | ⟨ll, err', _, hl, hb, e⟩ | ⟨ll, b, _, _, _, e⟩
    · rw [e] at h
      rw [New_level_error lib ns _ w hns hS, ← h]
    · rw [e] at h
      rw [New_pattern_error lib ns _ w hns ll err' hl hb, ← h]
    · rw [e] at h
      simp at h
  · intro pre writer impls
    have hlast : ∀ (rest : List StdOption),
        lastWriter (rest ++ .withWriter writer :: impls.map .withLoggerImpl) = some writer := by
      have himpl : lastWriter (impls.map StdOption.withLoggerImpl) = none := by
        induction impls with
        | nil => rfl
        | cons i is ih => simp [lastWriter, ih]
      intro rest
      induction rest with
      | nil => simp [lastWriter, himpl]
      | cons o rest ih => simp [lastWriter, ih]
    simp only [writerAfter, hlast]
    cases writer <;> rfl
  · intro pre impl writers
    have hlast : ∀ (rest : List StdOption),
        lastLoggerImpl (rest ++ .withLoggerImpl impl :: writers.map .withWriter) = some impl := by
      have hwr : lastLoggerImpl (writers.map StdOption.withWriter) = none := by
        induction writers with
        | nil => rfl
        | cons i is ih => simp [lastLoggerImpl, ih]
      intro rest
      induction rest with
      | nil => simp [lastLoggerImpl, hwr]
      | cons o rest ih => simp [lastLoggerImpl, ih]
    simp only [loggerImplAfter, hlast]
theorem New_options_witness :
    str "app" ≠ [] ∧
    ((∀ l0 w0, New plainLib (str "app") [] bareWorld = (.ok l0, w0) →
      New plainLib (str "app") (someOptions.map StdOption.toOption) bareWorld =
        (.ok { l0 with writer := writerAfter someOptions,
                       loggerImpl := loggerImplAfter someOptions }, w0) ∧
      l0.writer = .Stdout ∧ l0.loggerImpl = TextLogger ∧ l0.lastCall = none) ∧
    (∀ err w0, New plainLib (str "app") [] bareWorld = (.error err, w0) →
      New plainLib (str "app") (someOptions.map StdOption.toOption) bareWorld = (.error err, w0)) ∧
    (writerAfter [] = .Stdout ∧ loggerImplAfter [] = TextLogger) ∧
    (∀ (pre : List StdOption) (writer : Option Writer) (impls : List LoggerImpl),
      writerAfter (pre ++ .withWriter writer :: impls.map .withLoggerImpl) =
        match writer with
        | none => .Discard
        | some x => x) ∧
    (∀ (pre : List StdOption) (impl : LoggerImpl) (writers : List (Option Writer)),
      loggerImplAfter (pre ++ .withLoggerImpl impl :: writers.map .withWriter) = impl)) :=
  ⟨by decide, New_options plainLib (str "app") someOptions bareWorld (by decide)⟩

/-- An instance: a nil writer, then a formatter, then the buffer; the logger writes to
the buffer, and `WithWriter(nil)` alone gives the discard sink. -/
theorem New_options_example :
    (∃ l, New plainLib (str "app") (someOptions.map StdOption.toOption) bareWorld =
        (.ok l, bareWorld) ∧ l.writer = buffer ∧ l.enabled = true ∧
        l.logLevel = LogLevelWarn ∧ l.lastCall = none) ∧
    (∃ l, New plainLib (str "app") [WithWriter none] bareWorld = (.ok l, bareWorld) ∧
        l.writer = .Discard) := by
  refine ⟨⟨_, rfl, ?_, ?_, ?_, ?_⟩, ⟨_, rfl, ?_⟩⟩ <;> decide

/-! ## Pattern errors -/

theorem New_no_pattern_error (lib : ColorLib) (ns : GoString) (options : List LoggerOption)
    (w : World) (hv : utf8Valid (lookupOr DEBUG (str "*") w) = true) (err : RegexpError) :
    (New lib ns options w).1 ≠ .error (.regexp err) := by
  by_cases hns : ns = []
  · simp [New, hns]
  · rcases LogLevelFromString_cases (lookupOr DEBUG_LEVEL (str "WARN") w) with
      ⟨_, e⟩ | ⟨_, e⟩ | ⟨_, e⟩ | ⟨_, e⟩ | ⟨_, e⟩ <;>
      simp [New, hns, e, isEnabled_valid ns _ hv]

/-- C17 (as amended). For every namespace and every pattern that is valid UTF-8,
`isEnabled` returns no error: the expression obtained by quoting the pattern and
replacing each quoted `\*` by `.*` compiles, whatever backslashes, brackets, parentheses
or other meta characters the pattern holds; so `New` does not fail with a pattern error
when the value of `DEBUG` is valid UTF-8. A pattern that is not valid UTF-8 makes
`isEnabled` return the error of `regexp.Compile`. -/
theorem isEnabled_error_iff (n p : GoString) :
    ((∃ b, isEnabled n p = .ok b) ↔ utf8Valid p = true) ∧
    (isEnabled n p = .error .invalidUTF8 ↔ utf8Valid p = false) ∧
    ((∃ re, Compile (ReplaceAll (QuoteMeta p) (str "\\*") (str ".*")) = .ok re) ↔
      utf8Valid p = true) ∧
    (utf8Valid p = true →
      ∀ (lib : ColorLib) (ns : GoString) (options : List LoggerOption) (w : World),
        lookupOr DEBUG (str "*") w = p → ∀ err, (New lib ns options w).1 ≠ .error (.regexp err)) ∧
    (∃ re, Compile (ReplaceAll (QuoteMeta (str "\\*[a(b)]{2}^$|+?.\\\\*"))
      (str "\\*") (str ".*")) = .ok re) := by
  have hcompile : (∃ re, Compile (ReplaceAll (QuoteMeta p) (str "\\*") (str ".*")) = .ok re) ↔
      utf8Valid p = true := by
    cases hv : utf8Valid p with
    | true => simp [Compile_translate p hv]
    | false =>
      have h : Compile (ReplaceAll (QuoteMeta p) (str "\\*") (str ".*")) =
          .error .invalidUTF8 := by
        rw [translate_eq, Compile, decodeUnits]
        exact parseLoop_invalid_aux p.length p [] false (le_refl _) hv
      simp [h]
  refine ⟨?_, ?_, hcompile, ?_, ?_⟩
  · cases hv : utf8Valid p with
    | true => simp [isEnabled_valid n p hv]
    | false => simp [isEnabled_invalid n p hv]
  · cases hv : utf8Valid p with
    | true => simp [isEnabled_valid n p hv]
    | false => simp [isEnabled_invalid n p hv]
  · intro hv lib ns options w hw err
    exact New_no_pattern_error lib ns options w (by rw [hw]; exact hv) err
  · exact ⟨_, Compile_translate _ (by decide)⟩

/-- C17 (as stated) fails. The pattern made of the single byte `0xFF` is not valid
UTF-8: `isEnabled` returns an error for it, and with `DEBUG` set to it `New` fails with
that pattern error. -/
theorem isEnabled_error_counterexample :
    isEnabled (str "app") [0xFF] = .error .invalidUTF8 ∧
    LookupEnv DEBUG badPatternWorld = some [0xFF] ∧
    New plainLib (str "app") [] badPatternWorld =
      (.error (.regexp .invalidUTF8), badPatternWorld) := by
  refine ⟨by decide, by decide, ?_⟩
  have hl : LogLevelFromString (lookupOr DEBUG_LEVEL (str "WARN") badPatternWorld) =
      (LogLevelWarn, none) := by decide
  have hb : isEnabled (str "app") (lookupOr DEBUG (str "*") badPatternWorld) =
      .error .invalidUTF8 := by decide
  exact New_pattern_error plainLib (str "app") [] badPatternWorld (by decide) _ _ hl hb
/-! ## Delay bookkeeping -/

theorem lastCallLE_refl (t : Option Int) : lastCallLE t t := by
  cases t <;> simp [lastCallLE]

/-- What one call of `log` does to `lastCall`, the clock and the trace, when the clock
never goes back. -/
theorem log_step (l : Logger) (ll : Int) (message : GoString) (r : Run)
    (hmono : ClockMonotone r.world) (hkeep : KeepsClock l.loggerImpl)
    (hinv : ∀ t, l.lastCall = some t → ∃ k, k < r.world.tick ∧ t = r.world.clock k) :
    (l.log ll message r).2.world.clock = r.world.clock ∧
    r.world.tick ≤ (l.log ll message r).2.world.tick ∧
    (∀ t, (l.log ll message r).1.lastCall = some t →
      ∃ k, k < (l.log ll message r).2.world.tick ∧ t = r.world.clock k) ∧
    lastCallLE l.lastCall (l.log ll message r).1.lastCall ∧
    (l.lastCall.isSome = true → (l.log ll message r).1.lastCall.isSome = true) ∧
    ((l.enabled = true ∧ l.logLevel ≤ ll) → (l.log ll message r).1.lastCall.isSome = true) ∧
    (∃ new, (l.log ll message r).2.calls = r.calls ++ new ∧ ∀ req ∈ new, 0 ≤ req.Delay) := by
  by_cases hgate : l.enabled = true ∧ l.logLevel ≤ ll
  · obtain ⟨he, hl⟩ := hgate
    cases hlc : l.lastCall with
    | none =>
      have hd : 0 ≤ r.world.clock (r.world.tick + 1) - r.world.clock r.world.tick := by
        have := hmono r.world.tick (r.world.tick + 1) (by omega)
        omega
      obtain ⟨hc, ht⟩ := hkeep
        { Level := ll, Namespace := l.namespace_, Message := message, Writer := l.writer,
          Delay := r.world.clock (r.world.tick + 1) - r.world.clock r.world.tick,
          AddColor := l.addColor }
        { env := r.world.env, clock := r.world.clock, tick := r.world.tick + 1 + 1,
          writes := r.world.writes }
      simp only [Logger.log, he, hl, decide_True, Bool.and_self, if_true, hlc, IsZero,
        Option.isNone_none, Now, Since]
      refine ⟨hc, ?_, ?_, ?_, ?_, ?_, ?_⟩
      · have : r.world.tick + 1 + 1 ≤ _ := ht
        omega
      · intro t h
        simp only [Option.some.injEq] at h
        exact ⟨_, Nat.lt_succ_self _, by rw [← h, hc]⟩
      · simp [lastCallLE]
      · simp
      · simp
      · exact ⟨[_], rfl, by simpa using hd⟩
    | some t0 =>
      obtain ⟨k, hk, ht0⟩ := hinv t0 hlc
      subst ht0
      have hd : 0 ≤ r.world.clock r.world.tick - r.world.clock k := by
        have := hmono k r.world.tick (by omega)
        omega
      obtain ⟨hc, ht⟩ := hkeep
        { Level := ll, Namespace := l.namespace_, Message := message, Writer := l.writer,
          Delay := r.world.clock r.world.tick - r.world.clock k, AddColor := l.addColor }
        { env := r.world.env, clock := r.world.clock, tick := r.world.tick + 1,
          writes := r.world.writes }
      simp only [Logger.log, he, hl, decide_True, Bool.and_self, if_true, hlc, IsZero,
        Option.isNone_some, Bool.false_eq_true, if_false, Now, Since]
      refine ⟨hc, ?_, ?_, ?_, ?_, ?_, ?_⟩
      · have : r.world.tick + 1 ≤ _ := ht
        omega
      · intro t h
        simp only [Option.some.injEq] at h
        exact ⟨_, Nat.lt_succ_self _, by rw [← h, hc]⟩
      · simp only [lastCallLE, hc]
        have h1 : r.world.tick + 1 ≤ _ := ht
        exact hmono k _ (Nat.le_of_lt (Nat.lt_of_lt_of_le hk (Nat.le_trans (Nat.le_succ _) h1)))
      · simp
      · simp
      · exact ⟨[_], rfl, by simpa using hd⟩
  · have hrej : l.log ll message r = (l, r) := by
      apply log_rejected
      by_cases he : l.enabled = true
      · right
        have : ¬ l.logLevel ≤ ll := fun h => hgate ⟨he, h⟩
        omega
      · left
        simpa using he
    rw [hrej]
    exact ⟨rfl, le_refl _, hinv, lastCallLE_refl _, id, fun h => absurd h hgate,
      [], by simp, by simp⟩
theorem logTrace_head (l : Logger) (es : List (Int × GoString)) (r : Run) :
    ∃ tail, l.logTrace es r = (l, r) :: tail := by
  cases es with
  | nil => exact ⟨[], rfl⟩
  | cons e rest => exact ⟨_, rfl⟩

theorem logTrace_invariant (es : List (Int × GoString)) : ∀ (l : Logger) (r : Run),
    ClockMonotone r.world → KeepsClock l.loggerImpl →
    (∀ t, l.lastCall = some t → ∃ k, k < r.world.tick ∧ t = r.world.clock k) →
    List.Chain'
      (fun s s' : Logger × Run =>
        lastCallLE s.1.lastCall s'.1.lastCall ∧
          (s.1.lastCall.isSome = true → s'.1.lastCall.isSome = true))
      (l.logTrace es r) ∧
    ∃ new, (l.logAll es r).2.calls = r.calls ++ new ∧ ∀ req ∈ new, 0 ≤ req.Delay := by
  induction es with
  | nil =>
    intro l r _ _ _
    exact ⟨by simp [Logger.logTrace], [], by simp [Logger.logAll], by simp⟩
  | cons e rest ih =>
    intro l r hmono hkeep hinv
    obtain ⟨hc, -, hinv', hle, hsome, -, new1, hnew1, hd1⟩ :=
      log_step l e.1 e.2 r hmono hkeep hinv
    have hmono' : ClockMonotone (l.log e.1 e.2 r).2.world := by
      intro i j hij
      rw [hc]
      exact hmono i j hij
    have hkeep' : KeepsClock (l.log e.1 e.2 r).1.loggerImpl := by
      rw [(log_fields l e.1 e.2 r).2.2.2.1]
      exact hkeep
    have hinv'' : ∀ t, (l.log e.1 e.2 r).1.lastCall = some t →
        ∃ k, k < (l.log e.1 e.2 r).2.world.tick ∧ t = (l.log e.1 e.2 r).2.world.clock k := by
      intro t ht
      obtain ⟨k, hk, hkt⟩ := hinv' t ht
      exact ⟨k, hk, by rw [hc]; exact hkt⟩
    obtain ⟨hchain, new2, hnew2, hd2⟩ :=
      ih (l.log e.1 e.2 r).1 (l.log e.1 e.2 r).2 hmono' hkeep' hinv''
    obtain ⟨tail, htail⟩ := logTrace_head (l.log e.1 e.2 r).1 rest (l.log e.1 e.2 r).2
    refine ⟨?_, new1 ++ new2, ?_, ?_⟩
    · simp only [Logger.logTrace]
      rw [htail] at hchain ⊢
      exact List.Chain'.cons ⟨hle, hsome⟩ hchain
    · simp only [Logger.logAll, hnew2, hnew1, List.append_assoc]
    · intro req hreq
      rcases List.mem_append.mp hreq with h | h
      · exact hd1 req h
      · exact hd2 req h

/-- C19. Take a clock whose successive readings never decrease, a formatter that leaves
the clock alone, and a logger whose `lastCall` is unset or is a reading taken earlier
from this clock (as it is for every logger built by `New` and used since). Then along
every sequence of emissions the value of `lastCall` never decreases from one step to the
next, once set it is never unset again, every delay handed to the formatter is at least
0, and an admitted emission leaves `lastCall` set. -/
theorem lastCall_monotone (l : Logger) (es : List (Int × GoString)) (r : Run)
    (hmono : ClockMonotone r.world) (hkeep : KeepsClock l.loggerImpl)
    (hinv : ∀ t, l.lastCall = some t → ∃ k, k < r.world.tick ∧ t = r.world.clock k) :
    List.Chain'
      (fun s s' : Logger × Run =>
        lastCallLE s.1.lastCall s'.1.lastCall ∧
          (s.1.lastCall.isSome = true → s'.1.lastCall.isSome = true))
      (l.logTrace es r) ∧
    (∃ new, (l.logAll es r).2.calls = r.calls ++ new ∧ ∀ req ∈ new, 0 ≤ req.Delay) ∧
    (∀ (ll : Int) (message : GoString), l.enabled = true → l.logLevel ≤ ll →
      (l.log ll message r).1.lastCall.isSome = true ∧
      lastCallLE l.lastCall (l.log ll message r).1.lastCall) := by
  obtain ⟨hchain, hnew⟩ := logTrace_invariant es l r hmono hkeep hinv
  refine ⟨hchain, hnew, ?_⟩
  intro ll message he hl
  obtain ⟨-, -, -, hle, -, hset, -⟩ := log_step l ll message r hmono hkeep hinv
  exact ⟨hset ⟨he, hl⟩, hle⟩
theorem testWorld_monotone (step : Int) (hstep : 0 ≤ step) : ClockMonotone (testWorld step) := by
  intro i j hij
  simp only [testWorld]
  have : (i : Int) ≤ j := by exact_mod_cast hij
  nlinarith

theorem TextLogger_KeepsClock : KeepsClock TextLogger := by
  intro req w
  exact ⟨rfl, le_refl _⟩

theorem lastCall_monotone_witness :
    ClockMonotone (⟨testWorld 5, []⟩ : Run).world ∧ KeepsClock warnLogger.loggerImpl ∧
    (∀ t, warnLogger.lastCall = some t →
      ∃ k, k < (⟨testWorld 5, []⟩ : Run).world.tick ∧
        t = (⟨testWorld 5, []⟩ : Run).world.clock k) ∧
    (List.Chain'
      (fun s s' : Logger × Run =>
        lastCallLE s.1.lastCall s'.1.lastCall ∧
          (s.1.lastCall.isSome = true → s'.1.lastCall.isSome = true))
      (warnLogger.logTrace [(LogLevelWarn, str "x"), (LogLevelError, str "y")]
        ⟨testWorld 5, []⟩) ∧
    (∃ new, (warnLogger.logAll [(LogLevelWarn, str "x"), (LogLevelError, str "y")]
        ⟨testWorld 5, []⟩).2.calls = (⟨testWorld 5, []⟩ : Run).calls ++ new ∧
      ∀ req ∈ new, 0 ≤ req.Delay) ∧
    (∀ (ll : Int) (message : GoString), warnLogger.enabled = true → warnLogger.logLevel ≤ ll →
      (warnLogger.log ll message ⟨testWorld 5, []⟩).1.lastCall.isSome = true ∧
      lastCallLE warnLogger.lastCall (warnLogger.log ll message ⟨testWorld 5, []⟩).1.lastCall)) :=
  ⟨testWorld_monotone 5 (by decide), TextLogger_KeepsClock, fun t h => by simp [warnLogger] at h,
    lastCall_monotone warnLogger _ ⟨testWorld 5, []⟩ (testWorld_monotone 5 (by decide))
      TextLogger_KeepsClock (fun t h => by simp [warnLogger] at h)⟩

/-- The values along the witness above: `lastCall` goes from unset to 10 to 20, and the
delays are 5 and 5. -/
theorem lastCall_monotone_example :
    ((warnLogger.logTrace [(LogLevelWarn, str "x"), (LogLevelError, str "y")]
        ⟨testWorld 5, []⟩).map fun s => s.1.lastCall) = [none, some 10, some 20] ∧
    ((warnLogger.logAll [(LogLevelWarn, str "x"), (LogLevelError, str "y")]
        ⟨testWorld 5, []⟩).2.calls.map fun req => req.Delay) = [5, 5] := by
  constructor <;> decide

/-- An admitted emission on a logger whose `lastCall` is set: one clock reading, the
request, the formatter, one more clock reading. -/
theorem log_running (l : Logger) (ll : Int) (message : GoString) (r : Run) (t : Int)
    (he : l.enabled = true) (hl : l.logLevel ≤ ll) (hlc : l.lastCall = some t) :
    (l.log ll message r).2.calls = r.calls ++
      [{ Level := ll, Namespace := l.namespace_, Message := message, Writer := l.writer,
         Delay := r.world.clock r.world.tick - t, AddColor := l.addColor }] ∧
    (l.log ll message r).1.lastCall =
      (Now (l.loggerImpl.Log
        { Level := ll, Namespace := l.namespace_, Message := message, Writer := l.writer,
          Delay := r.world.clock r.world.tick - t, AddColor := l.addColor }
        { r.world with tick := r.world.tick + 1 })).1 ∧
    (l.log ll message r).2.world =
      (Now (l.loggerImpl.Log
        { Level := ll, Namespace := l.namespace_, Message := message, Writer := l.writer,
          Delay := r.world.clock r.world.tick - t, AddColor := l.addColor }
        { r.world with tick := r.world.tick + 1 })).2 := by
  simp only [Logger.log, he, hl, decide_True, Bool.and_self, if_true, hlc, IsZero,
    Option.isNone_some, Bool.false_eq_true, if_false, Now, Since, and_self]

/-- An admitted emission on a logger whose `lastCall` is unset: two clock readings, the
request, the formatter, one more clock reading. -/
theorem log_fresh (l : Logger) (ll : Int) (message : GoString) (r : Run)
    (he : l.enabled = true) (hl : l.logLevel ≤ ll) (hlc : l.lastCall = none) :
    (l.log ll message r).2.calls = r.calls ++
      [{ Level := ll, Namespace := l.namespace_, Message := message, Writer := l.writer,
         Delay := r.world.clock (r.world.tick + 1) - r.world.clock r.world.tick,
         AddColor := l.addColor }] ∧
    (l.log ll message r).1.lastCall =
      (Now (l.loggerImpl.Log
        { Level := ll, Namespace := l.namespace_, Message := message, Writer := l.writer,
          Delay := r.world.clock (r.world.tick + 1) - r.world.clock r.world.tick,
          AddColor := l.addColor }
        { r.world with tick := r.world.tick + 2 })).1 ∧
    (l.log ll message r).2.world =
      (Now (l.loggerImpl.Log
        { Level := ll, Namespace := l.namespace_, Message := message, Writer := l.writer,
          Delay := r.world.clock (r.world.tick + 1) - r.world.clock r.world.tick,
          AddColor := l.addColor }
        { r.world with tick := r.world.tick + 2 })).2 := by
  simp only [Logger.log, he, hl, decide_True, Bool.and_self, if_true, hlc, IsZero,
    Option.isNone_none, Now, Since, and_self]

/-- C18. For two consecutive admitted emissions on a logger: the first hands a request
`req1` to the formatter in the world `wpre` (the world of the call after the one or two
clock readings taken before dispatch), and stores in `lastCall` the reading `t` that the
clock gives in the world the formatter returned, so a reading taken after the formatter
call returned. Whatever happens to the world in between, the request of the second
emission carries as delay the reading the second emission takes first, before its
formatter call, minus `t`. -/
theorem consecutive_delay (l : Logger) (ll1 ll2 : Int) (m1 m2 : GoString) (r : Run)
    (he : l.enabled = true) (h1 : l.logLevel ≤ ll1) (h2 : l.logLevel ≤ ll2) :
    ∃ (req1 : LogRequest) (wpre : World) (t : Int),
      (l.log ll1 m1 r).2.calls = r.calls ++ [req1] ∧
      wpre = { r.world with tick := r.world.tick + (if IsZero l.lastCall then 2 else 1) } ∧
      t = (l.loggerImpl.Log req1 wpre).clock (l.loggerImpl.Log req1 wpre).tick ∧
      (l.log ll1 m1 r).1.lastCall = some t ∧
      (l.log ll1 m1 r).2.world =
        { l.loggerImpl.Log req1 wpre with tick := (l.loggerImpl.Log req1 wpre).tick + 1 } ∧
      ∀ r2 : Run, ∃ req2 : LogRequest,
        ((l.log ll1 m1 r).1.log ll2 m2 r2).2.calls = r2.calls ++ [req2] ∧
        req2.Delay = r2.world.clock r2.world.tick - t ∧
        ((l.log ll1 m1 r).1.log ll2 m2 r2).2.world =
          (Now (l.loggerImpl.Log req2 { r2.world with tick := r2.world.tick + 1 })).2 := by
  obtain ⟨hns, hen, hwr, himpl, hlv, hcol⟩ := log_fields l ll1 m1 r
  have second : ∀ t, (l.log ll1 m1 r).1.lastCall = some t → ∀ r2 : Run, ∃ req2 : LogRequest,
      ((l.log ll1 m1 r).1.log ll2 m2 r2).2.calls = r2.calls ++ [req2] ∧
      req2.Delay = r2.world.clock r2.world.tick - t ∧
      ((l.log ll1 m1 r).1.log ll2 m2 r2).2.world =
        (Now (l.loggerImpl.Log req2 { r2.world with tick := r2.world.tick + 1 })).2 := by
    intro t ht r2
    obtain ⟨hc2, -, hw2⟩ := log_running (l.log ll1 m1 r).1 ll2 m2 r2 t (by rw [hen, he])
      (by rw [hlv]; exact h2) ht
    rw [himpl] at hw2
    exact ⟨_, hc2, rfl, hw2⟩
  cases hlc : l.lastCall with
  | none =>
    obtain ⟨hc1, hl1, hw1⟩ := log_fresh l ll1 m1 r he h1 hlc
    exact ⟨_, _, _, hc1, by simp [IsZero], rfl, hl1, hw1, second _ hl1⟩
  | some t0 =>
    obtain ⟨hc1, hl1, hw1⟩ := log_running l ll1 m1 r t0 he h1 hlc
    exact ⟨_, _, _, hc1, by simp [IsZero], rfl, hl1, hw1, second _ hl1⟩
theorem consecutive_delay_witness :
    warnLogger.enabled = true ∧ warnLogger.logLevel ≤ LogLevelWarn ∧
    warnLogger.logLevel ≤ LogLevelError ∧
    ∃ (req1 : LogRequest) (wpre : World) (t : Int),
      (warnLogger.log LogLevelWarn (str "x") ⟨testWorld 5, []⟩).2.calls =
        (⟨testWorld 5, []⟩ : Run).calls ++ [req1] ∧
      wpre = { (⟨testWorld 5, []⟩ : Run).world with
        tick := (⟨testWorld 5, []⟩ : Run).world.tick +
          (if IsZero warnLogger.lastCall then 2 else 1) } ∧
      t = (warnLogger.loggerImpl.Log req1 wpre).clock (warnLogger.loggerImpl.Log req1 wpre).tick ∧
      (warnLogger.log LogLevelWarn (str "x") ⟨testWorld 5, []⟩).1.lastCall = some t ∧
      (warnLogger.log LogLevelWarn (str "x") ⟨testWorld 5, []⟩).2.world =
        { warnLogger.loggerImpl.Log req1 wpre with
          tick := (warnLogger.loggerImpl.Log req1 wpre).tick + 1 } ∧
      ∀ r2 : Run, ∃ req2 : LogRequest,
        ((warnLogger.log LogLevelWarn (str "x") ⟨testWorld 5, []⟩).1.log LogLevelError (str "y")
          r2).2.calls = r2.calls ++ [req2] ∧
        req2.Delay = r2.world.clock r2.world.tick - t ∧
        ((warnLogger.log LogLevelWarn (str "x") ⟨testWorld 5, []⟩).1.log LogLevelError (str "y")
          r2).2.world =
          (Now (warnLogger.loggerImpl.Log req2
            { r2.world with tick := r2.world.tick + 1 })).2 :=
  ⟨rfl, by decide, by decide,
    consecutive_delay warnLogger LogLevelWarn LogLevelError (str "x") (str "y") ⟨testWorld 5, []⟩
      rfl (by decide) (by decide)⟩

/-! ## Extending the namespace -/

theorem GlobFound_extend (wild : Nat → Prop) (p t x y : List Nat) (h : GlobFound wild p t) :
    GlobFound wild p (x ++ t ++ y) := by
  obtain ⟨pre, mid, suf, rfl, hg⟩ := h
  exact ⟨x ++ pre, mid, suf ++ y, by simp, hg⟩

/-- Admission goes by the runes of the namespace: it is kept when runes are added on
either side. -/
theorem isEnabled_extend_runes (n m p : GoString) (x y : List Nat)
    (hm : runes m = x ++ runes n ++ y) (h : isEnabled n p = .ok true) :
    isEnabled m p = .ok true := by
  cases hv : utf8Valid p with
  | false =>
    rw [isEnabled_invalid n p hv] at h
    simp at h
  | true =>
    rw [isEnabled_valid n p hv] at h
    rw [isEnabled_valid m p hv, hm]
    simp only [Except.ok.injEq] at h ⊢
    rw [matchFrom_glob] at h ⊢
    exact GlobFound_extend _ _ _ x y h

/-- An ASCII byte after the bytes that follow a lead byte does not change what the lead
byte decodes to. -/
theorem DecodeRune_append_ascii (p0 : Nat) (t : List Nat) (a : Nat) (rest : List Nat)
    (ha : a < 0x80) : DecodeRune (p0 :: (t ++ a :: rest)) = DecodeRune (p0 :: t) := by
  by_cases h0 : p0 < 0x80
  · simp [DecodeRune, h0]
  · have hacc := accept_range p0
    have har : a < acceptLo p0 ∨ acceptHi p0 < a := by omega
    have ha2 : a < 0x80 ∨ 0xBF < a := Or.inl ha
    rcases firstSize_cases p0 (by omega) with hs | ⟨hs, -, -⟩ | ⟨hs, -, -⟩ | ⟨hs, -, -⟩
    · simp [DecodeRune, h0, hs]
    · rcases t with _ | ⟨b1, t1⟩
      · simp [DecodeRune, h0, hs, har]
      · simp [DecodeRune, h0, hs, len2]
    · rcases t with _ | ⟨b1, _ | ⟨b2, t2⟩⟩
      · simp [DecodeRune, h0, hs, har]
      · by_cases hr : b1 < acceptLo p0 ∨ acceptHi p0 < b1
        · simp [DecodeRune, h0, hs, hr]
        · simp [DecodeRune, h0, hs, hr, ha2]
      · simp [DecodeRune, h0, hs, len3]
    · rcases t with _ | ⟨b1, _ | ⟨b2, _ | ⟨b3, t3⟩⟩⟩
      · simp [DecodeRune, h0, hs, har]
      · by_cases hr : b1 < acceptLo p0 ∨ acceptHi p0 < b1
        · simp [DecodeRune, h0, hs, hr]
        · simp [DecodeRune, h0, hs, hr, ha2]
      · by_cases hr : b1 < acceptLo p0 ∨ acceptHi p0 < b1
        · simp [DecodeRune, h0, hs, hr]
        · by_cases hr2 : b2 < 0x80 ∨ 0xBF < b2
          · simp [DecodeRune, h0, hs, hr, hr2]
          · simp [DecodeRune, h0, hs, hr, hr2, ha2]
      · simp [DecodeRune, h0, hs, len4]
theorem decodeFrom_append_ascii (n : Nat) : ∀ (s : GoString) (a : Nat) (rest : GoString),
    s.length ≤ n → a < 0x80 →
    decodeFrom 0 (s ++ a :: rest) = decodeFrom 0 s ++ decodeFrom 0 (a :: rest) := by
  induction n with
  | zero =>
    intro s a rest hs _
    have : s = [] := List.length_eq_zero.mp (by omega)
    subst this
    rfl
  | succ n ih =>
    intro s a rest hs ha
    rcases s with _ | ⟨p0, t⟩
    · rfl
    · have hdec := DecodeRune_append_ascii p0 t a rest ha
      by_cases h0 : p0 < 0x80
      · rw [List.cons_append, decodeFrom_ascii p0 _ h0, decodeFrom_ascii p0 _ h0,
          ih t a rest (by simpa using hs) ha]
        rfl
      · rcases DecodeRune_lead p0 t (by omega) with hinv | ⟨c, t', rfl, hlen, hc, hr, hX⟩
        · have e1 : decodeFrom 0 (p0 :: t) = (RuneError, 1) :: decodeFrom 0 t := by
            simp only [decodeFrom, hinv]
          have e2 : decodeFrom 0 (p0 :: (t ++ a :: rest)) =
              (RuneError, 1) :: decodeFrom 0 (t ++ a :: rest) := by
            simp only [decodeFrom, hdec, hinv]
          rw [List.cons_append, e2, e1, ih t a rest (by simpa using hs) ha]
          rfl
        · have hsz : (DecodeRune (p0 :: (c ++ t'))).2 - 1 = c.length := by omega
          have e1 : decodeFrom 0 (p0 :: (c ++ t')) =
              DecodeRune (p0 :: (c ++ t')) :: decodeFrom 0 t' := by
            simp only [decodeFrom, hsz, decodeFrom_skip]
          have e2 : decodeFrom 0 (p0 :: (c ++ (t' ++ a :: rest))) =
              DecodeRune (p0 :: (c ++ t')) :: decodeFrom 0 (t' ++ a :: rest) := by
            simp only [decodeFrom, hX, hsz, decodeFrom_skip]
          rw [List.cons_append, List.append_assoc, e2, e1,
            ih t' a rest (by simp at hs; omega) ha]
          rfl

/-- Appending a string that begins with an ASCII byte leaves the runes of the first
string as they were, whether or not it is valid UTF-8. -/
theorem runes_append_ascii (s : GoString) (a : Nat) (rest : GoString) (ha : a < 0x80) :
    runes (s ++ a :: rest) = runes s ++ runes (a :: rest) := by
  simp only [runes, decodeUnits, decodeFrom_append_ascii s.length s a rest (le_refl _) ha,
    List.map_append]

theorem child_namespace (parent s : GoString) :
    parent ++ str ":" ++ s = parent ++ 0x3A :: s := by
  have h : str ":" = [0x3A] := by decide
  rw [h]
  simp

/-- A child made by `(*Logger).New`, when the parent namespace is admitted by the
pattern of the environment: the child is enabled, its namespace is admitted too, and the
world is as before. -/
theorem child_enabled (lib : ColorLib) (l : Logger) (s : GoString) (w : World) (c : Logger)
    (w' : World) (hl : isEnabled l.namespace_ (lookupOr DEBUG (str "*") w) = .ok true)
    (hc : l.New lib s w = (.ok c, w')) :
    c.enabled = true ∧ isEnabled c.namespace_ (lookupOr DEBUG (str "*") w) = .ok true ∧
      w' = w := by
  by_cases hs : s = []
  · simp [Logger.New, hs] at hc
  · have hchild : isEnabled (l.namespace_ ++ str ":" ++ s) (lookupOr DEBUG (str "*") w) =
        .ok true := by
      apply isEnabled_extend_runes l.namespace_ _ _ [] (runes (0x3A :: s)) _ hl
      rw [child_namespace, runes_append_ascii _ _ _ (by omega)]
      simp
    have hnew : l.New lib s w =
        New lib (l.namespace_ ++ str ":" ++ s)
          ([StdOption.withWriter (some l.writer), .withLoggerImpl l.loggerImpl].map
            StdOption.toOption) w := by
      simp [Logger.New, hs, Logger.getNamespace, StdOption.toOption]
    rw [hnew] at hc
    rcases New_std_cases lib (l.namespace_ ++ str ":" ++ s)
        [.withWriter (some l.writer), .withLoggerImpl l.loggerImpl] w
        (concat_ne_nil _ _) with ⟨_, e⟩ | ⟨ll, err, _, _, _, e⟩ | ⟨ll, b, _, _, hb, e⟩
    · rw [e] at hc
      simp at hc
    · rw [e] at hc
      simp at hc
    · rw [e] at hc
      simp only [Prod.mk.injEq, Except.ok.injEq] at hc
      obtain ⟨rfl, rfl⟩ := hc
      rw [hchild] at hb
      simp only [Except.ok.injEq] at hb
      exact ⟨hb.symm, hchild, rfl⟩

theorem descend_enabled (lib : ColorLib) (names : List GoString) : ∀ (l : Logger) (w : World)
    (c : Logger) (w' : World), l.enabled = true →
    isEnabled l.namespace_ (lookupOr DEBUG (str "*") w) = .ok true →
    l.descend lib names w = (.ok c, w') → c.enabled = true ∧ w' = w := by
  induction names with
  | nil =>
    intro l w c w' he _ hc
    simp only [Logger.descend, Prod.mk.injEq, Except.ok.injEq] at hc
    obtain ⟨rfl, rfl⟩ := hc
    exact ⟨he, rfl⟩
  | cons s rest ih =>
    intro l w c w' _ hl hc
    simp only [Logger.descend] at hc
    cases hnew : l.New lib s w with
    | mk res w1 =>
      cases res with
      | error err =>
        rw [hnew] at hc
        simp at hc
      | ok c1 =>
        rw [hnew] at hc
        obtain ⟨he1, hl1, rfl⟩ := child_enabled lib l s w c1 w1 hl hnew
        exact ih c1 w1 c w' he1 hl1 hc

/-- C20 (as amended). Admission is monotone under extending the namespace as long as
the extension leaves the runes of the namespace as they are: for every pattern `P`, all
strings `X` and `N` that are valid UTF-8 and every string `Y`, if `isEnabled(N, P)` is
true then `isEnabled(X ++ N ++ Y, P)` is true; and for every string `N`, valid or not,
appending a string that begins with an ASCII byte keeps `isEnabled` true. In particular,
under an unchanged environment, every child and further descendant created with
`(*Logger).New` from an enabled logger, whose namespace the pattern of the environment
admits, is itself enabled. -/
theorem isEnabled_extend (p x n y : GoString) (hx : utf8Valid x = true)
    (hn : utf8Valid n = true) (h : isEnabled n p = .ok true) :
    isEnabled (x ++ n ++ y) p = .ok true ∧
    (∀ (m : GoString) (a : Nat) (rest : GoString), a < 0x80 → isEnabled m p = .ok true →
      isEnabled (m ++ a :: rest) p = .ok true) ∧
    (∀ (lib : ColorLib) (l : Logger) (names : List GoString) (w : World) (c : Logger)
      (w' : World), l.enabled = true →
      isEnabled l.namespace_ (lookupOr DEBUG (str "*") w) = .ok true →
      l.descend lib names w = (.ok c, w') → c.enabled = true) := by
  refine ⟨?_, ?_, ?_⟩
  · apply isEnabled_extend_runes n _ p (runes x) (runes y) _ h
    rw [List.append_assoc, runes_append_valid x _ hx, runes_append_valid n y hn,
      List.append_assoc]
  · intro m a rest ha hm
    apply isEnabled_extend_runes m _ p [] (runes (a :: rest)) _ hm
    rw [runes_append_ascii m a rest ha]
    simp
  · intro lib l names w c w' he hl hc
    exact (descend_enabled lib names l w c w' he hl hc).1

theorem isEnabled_extend_witness :
    utf8Valid (str "my:") = true ∧ utf8Valid (str "test") = true ∧
    isEnabled (str "test") (str "te*t") = .ok true ∧
    (isEnabled (str "my:" ++ str "test" ++ str ":x") (str "te*t") = .ok true ∧
    (∀ (m : GoString) (a : Nat) (rest : GoString), a < 0x80 →
      isEnabled m (str "te*t") = .ok true →
      isEnabled (m ++ a :: rest) (str "te*t") = .ok true) ∧
    (∀ (lib : ColorLib) (l : Logger) (names : List GoString) (w : World) (c : Logger)
      (w' : World), l.enabled = true →
      isEnabled l.namespace_ (lookupOr DEBUG (str "*") w) = .ok true →
      l.descend lib names w = (.ok c, w') → c.enabled = true)) :=
  ⟨by decide, by decide, by decide,
    isEnabled_extend (str "te*t") (str "my:") (str "test") (str ":x") (by decide) (by decide)
      (by decide)⟩

/-- A grandchild under `DEBUG=app*`: the logger `app:db:pool`, made in two steps from the
enabled logger `app`, is enabled. -/
theorem descend_example :
    ∃ c, warnLogger.descend plainLib [str "db", str "pool"]
        { bareWorld with env := fun key => if key = DEBUG then some (str "app*") else none } =
      (.ok c, { bareWorld with
        env := fun key => if key = DEBUG then some (str "app*") else none }) ∧
      c.namespace_ = str "app:db:pool" ∧ c.enabled = true := by
  refine ⟨_, rfl, ?_, ?_⟩ <;> decide

/-- C20 (as stated) fails. The byte `0xA9` alone is not valid UTF-8 and reads as
`U+FFFD`, so the namespace `0xA9 'a' 'a'` is admitted by the pattern `*` followed by
`U+FFFD`; with the byte `0xC2` put in front, `0xC2 0xA9` is the rune `U+00A9`, no
`U+FFFD` is left, and the longer namespace is not admitted. -/
theorem isEnabled_extend_counterexample :
    isEnabled [0xA9, 0x61, 0x61] [0x2A, 0xEF, 0xBF, 0xBD] = .ok true ∧
    isEnabled ([0xC2] ++ [0xA9, 0x61, 0x61] ++ []) [0x2A, 0xEF, 0xBF, 0xBD] = .ok false := by
  constructor <;> decide

end Golog
